import Mathlib

/-!
# Verification of the clack-prompts rendering core

Shallow embedding of the rendering core of `src/prompt/index.ts` and proofs
about it: the viewport-window function `limitOptions`, the ANSI-stripping
text metrics (`strip` / `ansiRegex`), the box layout (`buildBox`), the live
task log (`taskLog`), and the spinner lifecycle (`spinner`).

JavaScript strings are embedded as `List Char` (each relevant character is a
single UTF-16 code unit, so `.length` agrees). JavaScript numbers appearing
in the viewport arithmetic are embedded as `Int` (all values involved are
integers); `maxItems ?? Infinity` is embedded by an `Option Int` parameter
whose `none` case propagates through `Math.min`/`Math.max` the way `Infinity`
does. The unicode capability flag is fixed to `true` (the unicode glyph set),
matching `isUnicodeSupported()` on a modern terminal.
-/

set_option maxRecDepth 10000

namespace Clack

/-! ## Viewport window: `limitOptions` (src/prompt/index.ts lines 69-104) -/

/-- The effective maximum row count computed at lines 74-77:
`paramMaxItems = params.maxItems ?? Infinity`,
`outputMaxItems = Math.max(process.stdout.rows - 4, 0)`,
`maxItems = Math.min(outputMaxItems, Math.max(paramMaxItems, 5))`.
With `maxItems? = none` (i.e. `Infinity`), `Math.max(Infinity, 5) = Infinity`
and `Math.min(outputMaxItems, Infinity) = outputMaxItems`. -/
def effectiveMaxItems (maxItems? : Option Int) (stdoutRows : Int) : Int :=
  let outputMaxItems : Int := max (stdoutRows - 4) 0
  match maxItems? with
  | none => outputMaxItems
  | some m => min outputMaxItems (max m 5)

/-- The sliding window offset computed at lines 78-87. The local
`slidingWindowLocation` starts at `0`, so the two guards read
`cursor >= 0 + maxItems - 3` and `cursor < 0 + 2`. -/
def slidingWindowLocation (cursor len maxItems : Int) : Int :=
  if 0 + maxItems - 3 ≤ cursor then
    max (min (cursor - maxItems + 3) (len - maxItems)) 0
  else if cursor < 0 + 2 then
    max (cursor - 2) 0
  else 0

/-- The `.map((option, i, arr) => ...)` body at lines 97-103: row `i` is the
ellipsis row when `i === 0 && shouldRenderTopEllipsis` or
`i === arr.length - 1 && shouldRenderBottomEllipsis`, and otherwise
`style(option, i + slidingWindowLocation === cursor)`. `total` is the length
of the sliced array `arr`, and `i` is the running index. -/
def renderRows {α β : Type} (total : Nat) (loc cursor : Int) (top bottom : Bool)
    (style : α → Bool → β) (ellipsisRow : β) : Nat → List α → List β
  | _, [] => []
  | i, o :: rest =>
    (if (decide (i = 0) && top) || (decide (i = total - 1) && bottom) then ellipsisRow
     else style o (decide ((i : Int) + loc = cursor))) ::
    renderRows total loc cursor top bottom style ellipsisRow (i + 1) rest

/-- Shallow embedding of `limitOptions` (lines 69-104). The output row type
is kept generic: in the source, rows are strings, the ellipsis row is
`color.dim('...')` and `style` is the caller-supplied row renderer; keeping
the row type abstract lets theorems observe which rows are ellipsis rows.
`stdoutRows` is `process.stdout.rows`, read live at call time. -/
def limitOptions {α β : Type} (options : List α) (maxItems? : Option Int)
    (cursor : Int) (stdoutRows : Int) (style : α → Bool → β) (ellipsisRow : β) :
    List β :=
  let maxItems := effectiveMaxItems maxItems? stdoutRows
  let loc := slidingWindowLocation cursor (options.length : Int) maxItems
  let shouldRenderTopEllipsis : Bool :=
    decide (maxItems < (options.length : Int)) && decide (0 < loc)
  let shouldRenderBottomEllipsis : Bool :=
    decide (maxItems < (options.length : Int)) &&
      decide (loc + maxItems < (options.length : Int))
  let arr := (options.drop loc.toNat).take maxItems.toNat
  renderRows arr.length loc cursor shouldRenderTopEllipsis shouldRenderBottomEllipsis
    style ellipsisRow 0 arr

theorem renderRows_length {α β : Type} (total : Nat) (loc cursor : Int)
    (top bottom : Bool) (style : α → Bool → β) (ell : β) :
    ∀ (l : List α) (j : Nat),
      (renderRows total loc cursor top bottom style ell j l).length = l.length := by
  intro l
  induction l with
  | nil => intro j; rfl
  | cons o rest ih => intro j; simp [renderRows, ih (j + 1)]

theorem renderRows_get {α β : Type} (total : Nat) (loc cursor : Int)
    (top bottom : Bool) (style : α → Bool → β) (ell : β) :
    ∀ (l : List α) (j k : Nat) (hk : k < l.length),
      (renderRows total loc cursor top bottom style ell j l).get
          ⟨k, by rw [renderRows_length]; exact hk⟩ =
        (if (decide (j + k = 0) && top) || (decide (j + k = total - 1) && bottom)
         then ell
         else style (l.get ⟨k, hk⟩) (decide (((j + k : Nat) : Int) + loc = cursor))) := by
  intro l
  induction l with
  | nil => intro j k hk; exact absurd hk (by simp)
  | cons o rest ih =>
    intro j k hk
    cases k with
    | zero => simp [renderRows]
    | succ k =>
      have hk2 : k < rest.length := by simpa using hk
      have heq : j + (k + 1) = (j + 1) + k := by omega
      rw [heq]
      simpa [renderRows] using ih (j + 1) k hk2

theorem renderRows_getElem? {α β : Type} (total : Nat) (loc cursor : Int)
    (top bottom : Bool) (style : α → Bool → β) (ell : β)
    (l : List α) (j k : Nat) (hk : k < l.length) :
    (renderRows total loc cursor top bottom style ell j l)[k]? =
      some (if (decide (j + k = 0) && top) || (decide (j + k = total - 1) && bottom)
        then ell
        else style (l.get ⟨k, hk⟩) (decide (((j + k : Nat) : Int) + loc = cursor))) := by
  have h2 : k < (renderRows total loc cursor top bottom style ell j l).length := by
    rw [renderRows_length]; exact hk
  have h3 := renderRows_get total loc cursor top bottom style ell l j k hk
  rw [List.getElem?_eq_getElem h2, ← h3, List.get_eq_getElem]

theorem slidingWindowLocation_nonneg (c L W : Int) :
    0 ≤ slidingWindowLocation c L W := by
  unfold slidingWindowLocation
  split_ifs <;> omega

theorem slidingWindowLocation_lt (c L W : Int) (h1 : 1 ≤ W) (hL : 1 ≤ L) :
    slidingWindowLocation c L W < L := by
  unfold slidingWindowLocation
  split_ifs <;> omega

theorem slidingWindowLocation_pos_facts (c L W : Int)
    (hp : 0 < slidingWindowLocation c L W) :
    W < L ∧ slidingWindowLocation c L W + W ≤ L := by
  unfold slidingWindowLocation at hp ⊢
  split_ifs at hp ⊢ <;> omega

theorem slidingWindowLocation_facts (c L W : Int) (h4 : 4 ≤ W) (hc0 : 0 ≤ c)
    (hcL : c < L) :
    0 ≤ slidingWindowLocation c L W ∧
    slidingWindowLocation c L W ≤ c ∧
    c < slidingWindowLocation c L W + W ∧
    (0 < slidingWindowLocation c L W → slidingWindowLocation c L W + 1 ≤ c) ∧
    (slidingWindowLocation c L W + W < L →
      c + 1 < slidingWindowLocation c L W + W) := by
  unfold slidingWindowLocation
  split_ifs <;> omega

/-- C1 (amended): for every option list, every cursor `c` with `0 ≤ c < L`,
and every `maxItems`/terminal-rows pair whose effective maximum
`effectiveMax = min(max(rows - 4, 0), max(requestedMax, 5))` is at least 4,
`limitOptions` returns at most `effectiveMax` rows, the window satisfies
`windowStart ≤ c < windowStart + effectiveMax`, and the row of the cursor's
item (styled as active) is among the returned rows, not replaced by an
ellipsis marker. (The unamended claim, quantifying over all terminal row
counts, fails when the terminal-derived budget pushes the effective maximum
below 4; see the counterexample.) -/
theorem limitOptions_cursor_visible {α : Type} (options : List α)
    (mi : Option Int) (c rows : Int)
    (hc0 : 0 ≤ c) (hcL : c < (options.length : Int))
    (h4 : 4 ≤ effectiveMaxItems mi rows) :
    (limitOptions options mi c rows (fun o a => some (o, a)) none).length
        ≤ (effectiveMaxItems mi rows).toNat ∧
    slidingWindowLocation c (options.length : Int) (effectiveMaxItems mi rows) ≤ c ∧
    c < slidingWindowLocation c (options.length : Int) (effectiveMaxItems mi rows)
        + effectiveMaxItems mi rows ∧
    some (options.get ⟨c.toNat, by omega⟩, true)
      ∈ limitOptions options mi c rows (fun o a => some (o, a)) none := by
  set W := effectiveMaxItems mi rows with hW
  set L := (options.length : Int) with hL
  set loc := slidingWindowLocation c L W with hlocdef
  obtain ⟨hl0, hlc, hcw, hpos, hbot⟩ := slidingWindowLocation_facts c L W h4 hc0 hcL
  have hres : limitOptions options mi c rows (fun o a => some (o, a)) none =
      renderRows ((options.drop loc.toNat).take W.toNat).length loc c
        (decide (W < L) && decide (0 < loc))
        (decide (W < L) && decide (loc + W < L))
        (fun o a => some (o, a)) none 0 ((options.drop loc.toNat).take W.toNat) := rfl
  have halen : ((options.drop loc.toNat).take W.toNat).length
      = min W.toNat (options.length - loc.toNat) := by
    simp [List.length_take, List.length_drop]
  refine ⟨?_, hlc, hcw, ?_⟩
  · rw [hres, renderRows_length, halen]
    omega
  · have hk : (c - loc).toNat < ((options.drop loc.toNat).take W.toNat).length := by
      rw [halen]; omega
    have hget := renderRows_get ((options.drop loc.toNat).take W.toNat).length loc c
      (decide (W < L) && decide (0 < loc))
      (decide (W < L) && decide (loc + W < L))
      (fun o a => some (o, a)) none ((options.drop loc.toNat).take W.toNat)
      0 (c - loc).toNat hk
    have hcond : ((decide ((0 : Nat) + (c - loc).toNat = 0)
          && (decide (W < L) && decide (0 < loc)))
        || (decide ((0 : Nat) + (c - loc).toNat
              = ((options.drop loc.toNat).take W.toNat).length - 1)
          && (decide (W < L) && decide (loc + W < L)))) = false := by
      rw [halen]
      simp only [Bool.or_eq_false_iff, Bool.and_eq_false_iff, decide_eq_false_iff_not]
      constructor
      · by_cases hp : 0 < loc
        · left; have := hpos hp; omega
        · right; right; simpa using hp
      · by_cases hb : loc + W < L
        · left; omega
        · right; right; simpa using hb
    rw [hcond] at hget
    simp only [Bool.false_eq_true, if_false] at hget
    have hval : ((options.drop loc.toNat).take W.toNat).get
        ⟨(c - loc).toNat, hk⟩ = options.get ⟨c.toNat, by omega⟩ := by
      simp only [List.get_eq_getElem, List.getElem_take, List.getElem_drop]
      congr 1
      omega
    have hactive : (decide ((((0 : Nat) + (c - loc).toNat : Nat) : Int) + loc = c)) = true := by
      simp only [decide_eq_true_eq]
      omega
    rw [hval, hactive] at hget
    rw [hres]
    exact hget ▸ List.get_mem _ _ _

/-- Witness for C1: 10 options, requested max 5, 20 terminal rows (effective
max 5 ≥ 4), cursor 5: the cursor's active row is among the returned rows. -/
theorem limitOptions_cursor_visible_witness :
    some (5, true) ∈
      limitOptions (List.range 10) (some 5) 5 20 (fun o a => some (o, a)) none := by
  have h := limitOptions_cursor_visible (List.range 10) (some 5) 5 20
    (by decide) (by decide) (by decide)
  simpa using h.2.2.2

/-- Counterexample for C1 as stated: with 10 options, requested max 10 and a
5-row terminal the effective maximum is `min(max(5-4,0), max(10,5)) = 1`; at
cursor 0 the computed window start is 2, so `windowStart ≤ cursor` fails and
the single returned row is an ellipsis marker: the cursor's row is scrolled
out of view. -/
theorem limitOptions_cursor_visible_counterexample :
    effectiveMaxItems (some 10) 5 = 1 ∧
    slidingWindowLocation 0 10 (effectiveMaxItems (some 10) 5) = 2 ∧
    ¬ (slidingWindowLocation 0 10 (effectiveMaxItems (some 10) 5) ≤ 0) ∧
    limitOptions (List.range 10) (some 10) 0 5 (fun o a => some (o, a)) none
      = [none] ∧
    ∀ r ∈ limitOptions (List.range 10) (some 10) 0 5 (fun o a => some (o, a)) none,
      r ≠ some (0, true) := by decide

/-- C2 (amended): the caller-requested `maxItems` is clamped up to at least 5
before the terminal cap is applied, so the effective maximum is at least 5
whenever the terminal row budget `rows - 4` is at least 5, regardless of a
smaller caller-requested maximum; the effective maximum never exceeds the
terminal row budget `max(rows - 4, 0)`; and the number of rows actually
returned by `limitOptions` never exceeds the length of the option list. (The
unamended claim fails: a terminal budget below 5 drives the effective
maximum below 5, and the effective maximum itself may exceed the list
length; see the counterexample.) -/
theorem effectiveMaxItems_clamp :
    (∀ (mi : Option Int) (rows : Int), 5 ≤ rows - 4 →
      5 ≤ effectiveMaxItems mi rows) ∧
    (∀ (mi : Option Int) (rows : Int),
      effectiveMaxItems mi rows ≤ max (rows - 4) 0) ∧
    (∀ (α β : Type) (options : List α) (mi : Option Int) (c rows : Int)
      (style : α → Bool → β) (ell : β),
      (limitOptions options mi c rows style ell).length ≤ options.length) := by
  refine ⟨?_, ?_, ?_⟩
  · intro mi rows h
    cases mi
    · simp only [effectiveMaxItems]; omega
    · simp only [effectiveMaxItems]; omega
  · intro mi rows
    cases mi
    · simp only [effectiveMaxItems]; omega
    · simp only [effectiveMaxItems]; omega
  · intro α β options mi c rows style ell
    show (renderRows _ _ _ _ _ style ell 0 _).length ≤ _
    rw [renderRows_length]
    simp [List.length_take, List.length_drop]

/-- Witness for C2: a caller-requested maximum of 2 with a 9-row terminal
(budget 5) still yields an effective maximum of at least 5. -/
theorem effectiveMaxItems_clamp_witness :
    5 ≤ effectiveMaxItems (some 2) 9 :=
  effectiveMaxItems_clamp.1 (some 2) 9 (by decide)

/-- Counterexample for C2 as stated: with a 4-row terminal the budget is 0
and the effective maximum used to slice is 0 < 5, regardless of the
5-clamp on the requested maximum; and with no requested maximum and a 30-row
terminal the effective maximum 26 exceeds the length of a 2-element list. -/
theorem effectiveMaxItems_counterexample :
    effectiveMaxItems (some 2) 4 = 0 ∧
    ¬ (5 ≤ effectiveMaxItems (some 2) 4) ∧
    ((List.range 2).length : Int) < effectiveMaxItems none 30 := by decide

theorem renderRows_no_flags {α β : Type} (total : Nat) (loc cursor : Int)
    (style : α → Bool → β) (ell : β) :
    ∀ (l : List α) (j : Nat) (r : β),
      r ∈ renderRows total loc cursor false false style ell j l →
      ∃ o b, r = style o b := by
  intro l
  induction l with
  | nil => intro j r hr; simp [renderRows] at hr
  | cons o rest ih =>
    intro j r hr
    simp only [renderRows, Bool.and_false, Bool.or_self, Bool.false_eq_true,
      if_false, List.mem_cons] at hr
    rcases hr with h | h
    · exact ⟨o, _, h⟩
    · exact ih (j + 1) r h

/-- C3 (amended): whenever the effective maximum is at least 2, the first
returned row of `limitOptions` is an ellipsis marker iff the computed window
start is positive, the last returned row is an ellipsis marker iff the
window end `windowStart + effectiveMax` is before the list end, and no
ellipsis marker appears when the whole list fits within the effective
maximum. (As stated, over every terminal height, the claim fails when the
effective maximum is 1: the single returned row can be a top-ellipsis row
even though the window end has reached the list end; see the
counterexample.) -/
theorem limitOptions_ellipsis_markers {α : Type} (options : List α)
    (mi : Option Int) (c rows : Int)
    (h2 : 2 ≤ effectiveMaxItems mi rows) :
    ((limitOptions options mi c rows (fun o a => some (o, a)) none).head?
        = some none
      ↔ 0 < slidingWindowLocation c (options.length : Int)
          (effectiveMaxItems mi rows)) ∧
    ((limitOptions options mi c rows (fun o a => some (o, a)) none).getLast?
        = some none
      ↔ slidingWindowLocation c (options.length : Int) (effectiveMaxItems mi rows)
          + effectiveMaxItems mi rows < (options.length : Int)) ∧
    ((options.length : Int) ≤ effectiveMaxItems mi rows →
      ∀ r ∈ limitOptions options mi c rows (fun o a => some (o, a)) none,
        r ≠ none) := by
  set W := effectiveMaxItems mi rows with hW
  set L := (options.length : Int) with hL
  set loc := slidingWindowLocation c L W with hlocdef
  have hl0 : 0 ≤ loc := slidingWindowLocation_nonneg c L W
  have hres : limitOptions options mi c rows (fun o a => some (o, a)) none =
      renderRows ((options.drop loc.toNat).take W.toNat).length loc c
        (decide (W < L) && decide (0 < loc))
        (decide (W < L) && decide (loc + W < L))
        (fun o a => some (o, a)) none 0 ((options.drop loc.toNat).take W.toNat) := rfl
  have halen : ((options.drop loc.toNat).take W.toNat).length
      = min W.toNat (options.length - loc.toNat) := by
    simp [List.length_take, List.length_drop]
  rcases Nat.eq_zero_or_pos options.length with hlen0 | hlenpos
  · -- empty option list: no rows, window start 0, window end not before L
    have hLz : L = 0 := by omega
    have hnil : (options.drop loc.toNat).take W.toNat = [] := by
      have : options = [] := List.length_eq_zero.mp hlen0
      simp [this]
    have hresnil : limitOptions options mi c rows (fun o a => some (o, a)) none
        = ([] : List (Option (α × Bool))) := by
      rw [hres, hnil]; rfl
    have hnotpos : ¬ 0 < loc := by
      intro hp
      have := (slidingWindowLocation_pos_facts c L W hp).1
      omega
    refine ⟨?_, ?_, ?_⟩
    · rw [hresnil]; simp [hnotpos]
    · rw [hresnil]; simp; omega
    · intro _ r hr; rw [hresnil] at hr; simp at hr
  · -- nonempty option list: the slice is nonempty
    have hLpos : 1 ≤ L := by omega
    have hlocL : loc < L := slidingWindowLocation_lt c L W (by omega) hLpos
    have hn : 1 ≤ ((options.drop loc.toNat).take W.toNat).length := by
      rw [halen]; omega
    have hbot_iff : ∀ hb : loc + W < L, ((options.drop loc.toNat).take W.toNat).length
        = W.toNat := by
      intro hb; rw [halen]; omega
    have htop_arr : 0 < loc → ((options.drop loc.toNat).take W.toNat).length
        = W.toNat := by
      intro hp
      have := (slidingWindowLocation_pos_facts c L W hp).2
      rw [halen]; omega
    have hk0 : (0 : Nat) < ((options.drop loc.toNat).take W.toNat).length := hn
    have hresn : 0 < (limitOptions options mi c rows
        (fun o a => some (o, a)) none).length := by
      rw [hres, renderRows_length]; exact hn
    refine ⟨?_, ?_, ?_⟩
    · -- head row is an ellipsis iff the window start is positive
      rw [hres, List.head?_eq_getElem?,
        renderRows_getElem? _ _ _ _ _ _ _ _ 0 0 hk0]
      by_cases hp : 0 < loc
      · have hWL : W < L := (slidingWindowLocation_pos_facts c L W hp).1
        simp [hp, hWL]
      · by_cases hb : loc + W < L
        · have hlen := hbot_iff hb
          simp [hp]
          intro hx hy
          omega
        · simp [hp, hb]
    · -- last row is an ellipsis iff the window end is before the list end
      have hklast : ((options.drop loc.toNat).take W.toNat).length - 1
          < ((options.drop loc.toNat).take W.toNat).length := by omega
      have hstep : (limitOptions options mi c rows (fun o a => some (o, a)) none).getLast?
          = (renderRows ((options.drop loc.toNat).take W.toNat).length loc c
            (decide (W < L) && decide (0 < loc))
            (decide (W < L) && decide (loc + W < L))
            (fun o a => some (o, a)) none 0
            ((options.drop loc.toNat).take W.toNat))[((options.drop
              loc.toNat).take W.toNat).length - 1]? := by
        rw [hres, List.getLast?_eq_getElem?, renderRows_length]
      rw [hstep, renderRows_getElem? _ _ _ _ _ _ _ _ 0 _ hklast]
      by_cases hb : loc + W < L
      · have hWL : W < L := by omega
        have h1 : ((0:Nat) + (((options.drop loc.toNat).take W.toNat).length - 1)
            = ((options.drop loc.toNat).take W.toNat).length - 1) := by omega
        simp [hb, hWL, h1]
      · by_cases hp : 0 < loc
        · have hlen := htop_arr hp
          simp [hb]
          intro hx hy
          omega
        · simp [hb, hp]
    · -- when the whole list fits, no ellipsis marker appears
      intro hfit r hr
      have hWL : ¬ (W < L) := by omega
      rw [hres] at hr
      have hflag : (decide (W < L)) = false := by simp [hWL]
      rw [hflag, Bool.false_and, Bool.false_and] at hr
      obtain ⟨o, b, hob⟩ := renderRows_no_flags _ _ _ _ _ _ _ r hr
      simp [hob]

/-- Witness for C3: 10 options, requested max 5, 20 terminal rows, cursor 9:
window start 5 is positive, so the first returned row is an ellipsis row,
and the window end 10 equals the list length, so the last returned row is
not an ellipsis row. -/
theorem limitOptions_ellipsis_markers_witness :
    (limitOptions (List.range 10) (some 5) 9 20 (fun o a => some (o, a)) none).head?
      = some none ∧
    ¬ (limitOptions (List.range 10) (some 5) 9 20
        (fun o a => some (o, a)) none).getLast? = some none := by
  have h := limitOptions_ellipsis_markers (List.range 10) (some 5) 9 20 (by decide)
  constructor
  · exact h.1.mpr (by decide)
  · intro hcon
    exact absurd (h.2.1.mp hcon) (by decide)

/-- Counterexample for C3 as stated: 4 options, requested max 1, 5 terminal
rows (effective max 1), cursor 1: the window start is 3, the single returned
row is a top-ellipsis row, so the last returned row is an ellipsis marker
even though the window end `3 + 1 = 4` is not before the list end. -/
theorem limitOptions_ellipsis_markers_counterexample :
    (limitOptions (List.range 4) (some 1) 1 5 (fun o a => some (o, a)) none).getLast?
      = some none ∧
    ¬ (slidingWindowLocation 1 4 (effectiveMaxItems (some 1) 5)
        + effectiveMaxItems (some 1) 5 < 4) := by decide

/-- C4: the concrete scenario from the spec: 100 options, requested max 10,
terminal height 50 (row budget 46): effective max 10; cursor 50: window
start `min(50 - 10 + 3, 100 - 10) = 43`; 10 rows are returned and both the
first and the last returned row are ellipsis markers. -/
theorem limitOptions_scenario_100 :
    effectiveMaxItems (some 10) 50 = 10 ∧
    max (50 - 4 : Int) 0 = 46 ∧
    slidingWindowLocation 50 100 (effectiveMaxItems (some 10) 50) = 43 ∧
    (limitOptions (List.range 100) (some 10) 50 50
      (fun o a => some (o, a)) none).length = 10 ∧
    (limitOptions (List.range 100) (some 10) 50 50
      (fun o a => some (o, a)) none).head? = some none ∧
    (limitOptions (List.range 100) (some 10) 50 50
      (fun o a => some (o, a)) none).getLast? = some none := by decide

/-! ## Strings, styling and glyphs

JavaScript strings are embedded as `List Char`; every character appearing in
the embedded code is a single UTF-16 code unit, so JavaScript `.length` is
`List.length`. picocolors styling functions wrap a string in the usual SGR
escape pairs. The unicode capability flag is `true`, so the unicode glyph
set is used. -/

abbrev JSStr := List Char

/-- picocolors `dim`: SGR 2 / 22. -/
def colorDim (s : JSStr) : JSStr := "\x1b[2m".data ++ s ++ "\x1b[22m".data

/-- picocolors `gray`: SGR 90 / 39. -/
def colorGray (s : JSStr) : JSStr := "\x1b[90m".data ++ s ++ "\x1b[39m".data

/-- picocolors `green`: SGR 32 / 39. -/
def colorGreen (s : JSStr) : JSStr := "\x1b[32m".data ++ s ++ "\x1b[39m".data

/-- picocolors `red`: SGR 31 / 39. -/
def colorRed (s : JSStr) : JSStr := "\x1b[31m".data ++ s ++ "\x1b[39m".data

/-- picocolors `reset`: SGR 0 on both sides. -/
def colorReset (s : JSStr) : JSStr := "\x1b[0m".data ++ s ++ "\x1b[0m".data

def S_BAR : JSStr := "│".data

def S_STEP_SUBMIT : JSStr := "◇".data

def S_STEP_CANCEL : JSStr := "■".data

def S_STEP_ERROR : JSStr := "▲".data

def S_SUCCESS : JSStr := "◆".data

def S_ERROR_GLYPH : JSStr := "■".data

def S_BAR_H : JSStr := "─".data

def S_CORNER_TOP_RIGHT : JSStr := "╮".data

def S_CONNECT_LEFT : JSStr := "├".data

def S_CORNER_BOTTOM_RIGHT : JSStr := "╯".data

/-- `Math.ceil(a / b)` for the natural numbers appearing in the frame-height
computation (`b` is the terminal column count, positive on a real
terminal). -/
def ceilDiv (a b : Nat) : Nat := (a + b - 1) / b

/-- JavaScript `String.prototype.split` with a single-character separator. -/
def splitOnChar (sep : Char) : List Char → List (List Char)
  | [] => [[]]
  | c :: cs =>
    let r := splitOnChar sep cs
    if c = sep then [] :: r
    else
      match r with
      | s :: ss => (c :: s) :: ss
      | [] => [[c]]

theorem splitOnChar_no_sep (sep : Char) :
    ∀ l : List Char, sep ∉ l → splitOnChar sep l = [l] := by
  intro l
  induction l with
  | nil => intro _; rfl
  | cons c cs ih =>
    intro h
    have hc : ¬ c = sep := fun he => h (by simp [he])
    have hcs : sep ∉ cs := fun hm => h (by simp [hm])
    simp [splitOnChar, hc, ih hcs]

theorem splitOnChar_append_sep (sep : Char) :
    ∀ (u v : List Char), sep ∉ u →
      splitOnChar sep (u ++ sep :: v) = u :: splitOnChar sep v := by
  intro u
  induction u with
  | nil => intro v _; simp [splitOnChar]
  | cons c u' ih =>
    intro v h
    have hc : ¬ c = sep := fun he => h (by simp [he])
    have hu : sep ∉ u' := fun hm => h (by simp [hm])
    simp [splitOnChar, hc, ih v hu]

/-! ## Live log: `taskLog` (src/prompt/index.ts lines 652-717)

The terminal writes performed by the log are recorded as a list of events:
plain text writes, `cursor.up(n)` and `erase.down()`. The accumulated
`output` and last painted `frame` strings are the mutable closure state of
the source. `print` is embedded with its default `limit = 0` (where
`slice(-0)` keeps every line, exactly as in the `text` setter and `fail`
paths) and with no `parser` option. -/

inductive TermWrite where
  | text : JSStr → TermWrite
  | cursorUp : Nat → TermWrite
  | eraseDown : TermWrite
deriving DecidableEq

structure TaskLogState where
  output : JSStr
  frame : JSStr
deriving DecidableEq

/-- The state after the heading has been written: `output = ''`,
`frame = ''`. -/
def initialTaskLog : TaskLogState := { output := [], frame := [] }

def taskBAR : JSStr := colorDim S_BAR

def taskACTIVE : JSStr := colorGreen S_STEP_SUBMIT

def taskSUCCESS : JSStr := colorGreen S_SUCCESS

def taskERROR : JSStr := colorRed S_ERROR_GLYPH

/-- The frame height computed by `clear` (lines 675-679): the sum over each
line of the previously rendered frame of `Math.ceil(lineLength /
terminalWidth)`, accounting for soft line wraps. -/
def frameHeight (frame : JSStr) (terminalWidth : Nat) : Nat :=
  (splitOnChar '\n' frame).foldl
    (fun height line => height + ceilDiv line.length terminalWidth) 0

/-- `clear` (lines 672-684): with an empty frame it returns immediately and
writes nothing; otherwise it moves the cursor up `frameHeight` rows (plus
one if the title is erased) and erases downwards. -/
def taskClear (st : TaskLogState) (terminalWidth : Nat) (eraseTitle : Bool) :
    List TermWrite :=
  if st.frame = [] then []
  else
    [TermWrite.cursorUp
      (frameHeight st.frame terminalWidth + (if eraseTitle then 1 else 0)),
     TermWrite.eraseDown]

/-- The frame rebuilt by `print` (lines 686-696) from the accumulated
output: each line of the output becomes `BAR + two spaces + line + newline`
(with `limit = 0` and no parser, every line is kept). -/
def taskPrintFrame (output : JSStr) : JSStr :=
  (splitOnChar '\n' output).foldl
    (fun frame line => frame ++ taskBAR ++ "  ".data ++ line ++ ['\n']) []

/-- The `text` setter (lines 699-706): clear the previous frame, append the
data to the output, repaint the whole accumulated output (written dimmed). -/
def taskText (st : TaskLogState) (terminalWidth : Nat) (data : JSStr) :
    TaskLogState × List TermWrite :=
  let w1 := taskClear st terminalWidth false
  let output := st.output ++ data
  let frame := taskPrintFrame output
  ({ output := output, frame := frame },
    w1 ++ [TermWrite.text (colorDim frame)])

/-- `fail` (lines 707-711): clear including the title, write the
error-styled message, then dump the accumulated output below it. -/
def taskFail (st : TaskLogState) (terminalWidth : Nat) (message : JSStr) :
    TaskLogState × List TermWrite :=
  let w1 := taskClear st terminalWidth true
  let frame := taskPrintFrame st.output
  ({ output := st.output, frame := frame },
    w1 ++ [TermWrite.text (taskERROR ++ "  ".data ++ message ++ ['\n']),
           TermWrite.text (colorDim frame)])

/-- `success` (lines 712-715): clear including the title and write the
success-styled message, without the frame dump. -/
def taskSuccess (st : TaskLogState) (terminalWidth : Nat) (message : JSStr) :
    TaskLogState × List TermWrite :=
  (st, taskClear st terminalWidth true
    ++ [TermWrite.text (taskSUCCESS ++ "  ".data ++ message ++ ['\n'])])

theorem taskText_state (st : TaskLogState) (w : Nat) (d : JSStr) :
    ((taskText st w d).1).output = st.output ++ d ∧
    ((taskText st w d).1).frame = taskPrintFrame (st.output ++ d) := by
  constructor <;> rfl

theorem taskPrintFrame_single (out : JSStr) (h : '\n' ∉ out) :
    taskPrintFrame out = taskBAR ++ "  ".data ++ out ++ ['\n'] := by
  unfold taskPrintFrame
  rw [splitOnChar_no_sep _ out h]
  simp

theorem foldl_taskText (w : Nat) :
    ∀ (chunks : List JSStr) (st : TaskLogState), chunks ≠ [] →
      (∀ ch ∈ chunks, '\n' ∉ ch) → '\n' ∉ st.output →
      (chunks.foldl (fun s d => (taskText s w d).1) st).output
          = st.output ++ chunks.flatten ∧
      (chunks.foldl (fun s d => (taskText s w d).1) st).frame
          = taskBAR ++ "  ".data ++ (st.output ++ chunks.flatten) ++ ['\n'] := by
  intro chunks
  induction chunks with
  | nil => intro st h; exact absurd rfl h
  | cons d rest ih =>
    intro st _ hnl hout
    have hd : '\n' ∉ d := hnl d (by simp)
    have hout1 : '\n' ∉ st.output ++ d := by
      intro hm
      rcases List.mem_append.mp hm with hm | hm
      · exact hout hm
      · exact hd hm
    rcases List.eq_nil_or_concat rest with hrest | _
    · subst hrest
      simp only [List.foldl_cons, List.foldl_nil, List.flatten_cons, List.flatten_nil,
        List.append_nil]
      refine ⟨(taskText_state st w d).1, ?_⟩
      rw [(taskText_state st w d).2, taskPrintFrame_single _ hout1]
    · rcases List.eq_nil_or_concat rest with hrest2 | hrest2
      · subst hrest2
        simp only [List.foldl_cons, List.foldl_nil, List.flatten_cons, List.flatten_nil,
          List.append_nil]
        refine ⟨(taskText_state st w d).1, ?_⟩
        rw [(taskText_state st w d).2, taskPrintFrame_single _ hout1]
      · have hrest : rest ≠ [] := by
          rcases hrest2 with ⟨a, b, hab⟩
          subst hab
          simp
        have hrnl : ∀ ch ∈ rest, '\n' ∉ ch := fun ch hch => hnl ch (by simp [hch])
        have hst1 : '\n' ∉ ((taskText st w d).1).output := by
          rw [(taskText_state st w d).1]; exact hout1
        have := ih ((taskText st w d).1) hrest hrnl hst1
        simp only [List.foldl_cons]
        rw [this.1, this.2, (taskText_state st w d).1]
        constructor
        · simp [List.flatten_cons, List.append_assoc]
        · simp [List.flatten_cons, List.append_assoc]

theorem ceilDiv_zero (w : Nat) : ceilDiv 0 w = 0 := by
  unfold ceilDiv
  cases w with
  | zero => rfl
  | succ n => exact Nat.div_eq_of_lt (by omega)

/-- C5 (amended): the clear operation of the live log moves the cursor up by
exactly `frameHeight` rows (plus one when erasing the title), where
`frameHeight` is the sum over each line of the previously rendered frame of
`ceil(lineLength / terminalColumnWidth)`; after N sequential appends of
newline-free text the rendered frame is the dimmed bar, two spaces, the
concatenation of all appended text, and a newline — so the erase row count
for that single-line buffer is `ceil((totalChars + 12) / terminalColumns)`,
where 12 is the raw length of the bar prefix `'\x1b[2m│\x1b[22m' + '  '`
stored in the frame (the erase height is computed from the raw stored line,
escape codes included, not from the visible character count; see the
counterexample). -/
theorem taskLog_erase_rows :
    (∀ (st : TaskLogState) (w : Nat) (b : Bool), st.frame ≠ [] →
      taskClear st w b
        = [TermWrite.cursorUp (frameHeight st.frame w + (if b then 1 else 0)),
           TermWrite.eraseDown]) ∧
    (∀ (chunks : List JSStr) (w : Nat), chunks ≠ [] →
      (∀ ch ∈ chunks, '\n' ∉ ch) →
      (chunks.foldl (fun s d => (taskText s w d).1) initialTaskLog).frame
          = taskBAR ++ "  ".data ++ chunks.flatten ++ ['\n'] ∧
      ∀ b : Bool,
        taskClear (chunks.foldl (fun s d => (taskText s w d).1) initialTaskLog) w b
          = [TermWrite.cursorUp (ceilDiv (chunks.flatten.length + 12) w
              + (if b then 1 else 0)), TermWrite.eraseDown]) := by
  constructor
  · intro st w b h
    unfold taskClear
    rw [if_neg h]
  · intro chunks w hne hnl
    have hinit : '\n' ∉ initialTaskLog.output := by simp [initialTaskLog]
    have hfold := foldl_taskText w chunks initialTaskLog hne hnl hinit
    have hframe : (chunks.foldl (fun s d => (taskText s w d).1) initialTaskLog).frame
        = taskBAR ++ "  ".data ++ chunks.flatten ++ ['\n'] := by
      rw [hfold.2]; simp [initialTaskLog]
    refine ⟨hframe, fun b => ?_⟩
    have hnlu : '\n' ∉ taskBAR ++ "  ".data ++ chunks.flatten := by
      intro hm
      rcases List.mem_append.mp hm with hm | hm
      · rcases List.mem_append.mp hm with hm | hm
        · exact absurd hm (by decide)
        · exact absurd hm (by decide)
      · rcases List.mem_flatten.mp hm with ⟨ch, hch, hmem⟩
        exact hnl ch hch hmem
    have hnonnil : taskBAR ++ "  ".data ++ chunks.flatten ++ ['\n'] ≠ [] := by
      simp [taskBAR, colorDim]
    have hfh : frameHeight (taskBAR ++ "  ".data ++ chunks.flatten ++ ['\n']) w
        = ceilDiv (chunks.flatten.length + 12) w := by
      unfold frameHeight
      have hsp : splitOnChar '\n'
          ((taskBAR ++ "  ".data ++ chunks.flatten) ++ '\n' :: [])
          = (taskBAR ++ "  ".data ++ chunks.flatten) :: splitOnChar '\n' [] :=
        splitOnChar_append_sep '\n' _ [] hnlu
      have hrw : taskBAR ++ "  ".data ++ chunks.flatten ++ ['\n']
          = (taskBAR ++ "  ".data ++ chunks.flatten) ++ '\n' :: [] := by
        simp [List.append_assoc]
      rw [hrw, hsp]
      show (0 + ceilDiv (taskBAR ++ "  ".data ++ chunks.flatten).length w)
          + ceilDiv ([] : JSStr).length w = _
      rw [List.length_nil, ceilDiv_zero]
      have hlen : (taskBAR ++ "  ".data ++ chunks.flatten).length
          = chunks.flatten.length + 12 := by
        simp [taskBAR, colorDim, S_BAR]
      rw [hlen]
      omega
    unfold taskClear
    rw [if_neg (hframe ▸ hnonnil), hframe, hfh]

/-- Witness for C5: two newline-free appends `'ab'` then `'c'` on an 80
column terminal: the frame is the dimmed bar, two spaces, `'abc'` and a
newline, and clearing erases `ceil((3 + 12) / 80) = 1` row. -/
theorem taskLog_erase_rows_witness :
    taskClear ((["ab".data, "c".data]).foldl
        (fun s d => (taskText s 80 d).1) initialTaskLog) 80 false
      = [TermWrite.cursorUp 1, TermWrite.eraseDown] := by
  have h := (taskLog_erase_rows.2 ["ab".data, "c".data] 80 (by decide)
    (by decide)).2 false
  rw [h]
  rfl

/-- Counterexample for C5 as stated: a single append of 70 characters on an
80 column terminal erases 2 rows (the stored frame line is 82 raw
characters long: 12 bar-prefix characters including escape codes plus the
70 appended ones), whereas `ceil(totalVisibleChars / terminalColumns)
= ceil(70 / 80) = 1`. -/
theorem taskLog_erase_rows_counterexample :
    taskClear ((taskText initialTaskLog 80 (List.replicate 70 'a')).1) 80 false
      = [TermWrite.cursorUp 2, TermWrite.eraseDown] ∧
    ceilDiv (List.replicate 70 'a').length 80 = 1 := by decide

/-- C10: with an empty stored frame (the state right after construction),
`clear` writes nothing; consequently the first append writes only the new
dimmed frame text, `fail` writes only its error line and the frame dump, and
`success` writes only its success line — no cursor movement and no erase, so
the heading lines above are untouched. -/
theorem taskLog_initial_noop :
    (∀ (out : JSStr) (w : Nat) (b : Bool),
      taskClear { output := out, frame := [] } w b = []) ∧
    (∀ (w : Nat) (d : JSStr),
      (taskText initialTaskLog w d).2
        = [TermWrite.text (colorDim (taskPrintFrame d))]) ∧
    (∀ (w : Nat) (m : JSStr),
      (taskFail initialTaskLog w m).2
        = [TermWrite.text (taskERROR ++ "  ".data ++ m ++ ['\n']),
           TermWrite.text (colorDim (taskPrintFrame []))]) ∧
    (∀ (w : Nat) (m : JSStr),
      (taskSuccess initialTaskLog w m).2
        = [TermWrite.text (taskSUCCESS ++ "  ".data ++ m ++ ['\n'])]) :=
  ⟨fun _ _ _ => rfl, fun _ _ => rfl, fun _ _ => rfl, fun _ _ => rfl⟩

/-! ## Spinner lifecycle: `spinner` (src/prompt/index.ts lines 772-861)

The spinner's mutable closure state (`isSpinnerActive`, `_message`, the
recurring timer, the registered process hooks, and the input block acquired
by `start` via `block()`) is embedded as an explicit record; terminal writes
and the timer/hook/unblock side effects are recorded as an event list.
`cursor.move(-999, 0)` and `erase.down(1)` are the line-erase pair used by
both the tick and `stop`. -/

inductive SpinnerEff where
  | write : JSStr → SpinnerEff
  | moveToColumnStart : SpinnerEff
  | eraseDownOne : SpinnerEff
  | clearTimer : SpinnerEff
  | deregisterHooks : SpinnerEff
  | unblock : SpinnerEff
deriving DecidableEq

structure SpinnerState where
  isSpinnerActive : Bool
  message : JSStr
  timerActive : Bool
  hooksRegistered : Bool
  inputBlocked : Bool
deriving DecidableEq

/-- `msg.replace(/\.+$/, '')`: strip trailing dots from the start message. -/
def stripTrailingDots (s : JSStr) : JSStr :=
  (s.reverse.dropWhile (fun c => c = '.')).reverse

/-- `start(msg)` (lines 816-833): mark active, acquire the input block,
store the dot-stripped message, write a leading bar line, register the
lifecycle hooks and start the recurring timer. -/
def spinnerStart (st : SpinnerState) (msg : JSStr) : SpinnerState × List SpinnerEff :=
  ({ st with
      isSpinnerActive := true
      inputBlocked := true
      message := stripTrailingDots msg
      hooksRegistered := true
      timerActive := true },
   [SpinnerEff.write (colorGray S_BAR ++ ['\n'])])

/-- `stop(msg, code)` (lines 835-850): store the message, mark inactive,
cancel the timer, choose the final glyph from the exit code (0 = submit
glyph in green, 1 = cancel glyph in red, otherwise error glyph in red),
erase the animated line, write the single static final line, deregister the
hooks and release the input block. -/
def spinnerStop (st : SpinnerState) (msg : JSStr) (code : Int) :
    SpinnerState × List SpinnerEff :=
  let step :=
    if code = 0 then colorGreen S_STEP_SUBMIT
    else if code = 1 then colorRed S_STEP_CANCEL
    else colorRed S_STEP_ERROR
  ({ st with
      isSpinnerActive := false
      message := msg
      timerActive := false
      hooksRegistered := false
      inputBlocked := false },
   [SpinnerEff.clearTimer, SpinnerEff.moveToColumnStart, SpinnerEff.eraseDownOne,
    SpinnerEff.write (step ++ "  ".data ++ msg ++ ['\n']),
    SpinnerEff.deregisterHooks, SpinnerEff.unblock])

/-- `handleExit(code)` (lines 785-788): pick the message from the code and
call `stop` if and only if the spinner is currently active. -/
def handleExit (st : SpinnerState) (code : Int) : SpinnerState × List SpinnerEff :=
  let msg := if 1 < code then "Something went wrong".data else "Canceled".data
  if st.isSpinnerActive then spinnerStop st msg code else (st, [])

/-- The handler registered for `uncaughtExceptionMonitor` and
`unhandledRejection` (lines 790-792): `handleExit(2)`. -/
def errorEventHandler (st : SpinnerState) : SpinnerState × List SpinnerEff :=
  handleExit st 2

/-- The handler registered for `SIGINT` and `SIGTERM` (lines 793-795):
`handleExit(1)`. -/
def signalEventHandler (st : SpinnerState) : SpinnerState × List SpinnerEff :=
  handleExit st 1

/-- C8: for every running spinner and every `(message, exitCode)` pair,
`stop` cancels the recurring timer, erases the animated line, writes exactly
one text line — the static final line whose leading glyph is the green
submit glyph when the exit code is 0, the red cancel glyph when it is 1, and
the red error glyph otherwise — then deregisters the lifecycle hooks and
releases the input block acquired by `start`. -/
theorem spinnerStop_final (st : SpinnerState) (msg : JSStr) (code : Int)
    (_hactive : st.isSpinnerActive = true) :
    (spinnerStop st msg code).1.timerActive = false ∧
    (spinnerStop st msg code).1.isSpinnerActive = false ∧
    (spinnerStop st msg code).1.hooksRegistered = false ∧
    (spinnerStop st msg code).1.inputBlocked = false ∧
    (spinnerStop st msg code).2
      = [SpinnerEff.clearTimer, SpinnerEff.moveToColumnStart, SpinnerEff.eraseDownOne,
         SpinnerEff.write ((if code = 0 then colorGreen S_STEP_SUBMIT
             else if code = 1 then colorRed S_STEP_CANCEL
             else colorRed S_STEP_ERROR) ++ "  ".data ++ msg ++ ['\n']),
         SpinnerEff.deregisterHooks, SpinnerEff.unblock] ∧
    ((spinnerStop st msg code).2.filter
        (fun e => match e with
          | SpinnerEff.write _ => true
          | _ => false)).length = 1 := by
  refine ⟨rfl, rfl, rfl, rfl, rfl, ?_⟩
  simp [spinnerStop, List.filter]

/-- Witness for C8: stopping an active spinner with exit code 1 produces the
red cancel glyph on the single final line. -/
theorem spinnerStop_final_witness :
    (spinnerStop
        { isSpinnerActive := true, message := [], timerActive := true,
          hooksRegistered := true, inputBlocked := true }
        "Canceled".data 1).2
      = [SpinnerEff.clearTimer, SpinnerEff.moveToColumnStart, SpinnerEff.eraseDownOne,
         SpinnerEff.write ((if (1:Int) = 0 then colorGreen S_STEP_SUBMIT
             else if (1:Int) = 1 then colorRed S_STEP_CANCEL
             else colorRed S_STEP_ERROR) ++ "  ".data ++ "Canceled".data ++ ['\n']),
         SpinnerEff.deregisterHooks, SpinnerEff.unblock] :=
  (spinnerStop_final
    { isSpinnerActive := true, message := [], timerActive := true,
      hooksRegistered := true, inputBlocked := true }
    "Canceled".data 1 rfl).2.2.2.2.1

/-- C9: each lifecycle-guard handler calls `stop` iff the spinner is
currently active: the signal handler stops with the cancelled exit code 1,
the fault handler with the error exit code 2, and the process-exit handler
with the supplied code; when the spinner is inactive every handler leaves
the state unchanged and performs no effect. A normal completion of `stop`
deregisters the hooks and deactivates the spinner, so firing any handler
after a clean stop performs nothing — a clean stop never double-fires. -/
theorem lifecycleGuard_handlers :
    (∀ st : SpinnerState, st.isSpinnerActive = true →
      signalEventHandler st = spinnerStop st "Canceled".data 1 ∧
      errorEventHandler st = spinnerStop st "Something went wrong".data 2) ∧
    (∀ st : SpinnerState, st.isSpinnerActive = false →
      signalEventHandler st = (st, []) ∧
      errorEventHandler st = (st, []) ∧
      ∀ code : Int, handleExit st code = (st, [])) ∧
    (∀ (st : SpinnerState) (msg : JSStr) (code : Int),
      (spinnerStop st msg code).1.hooksRegistered = false ∧
      (spinnerStop st msg code).1.isSpinnerActive = false ∧
      (∀ code2 : Int,
        handleExit (spinnerStop st msg code).1 code2
          = ((spinnerStop st msg code).1, []))) := by
  refine ⟨fun st h => ⟨?_, ?_⟩, fun st h => ⟨?_, ?_, fun code => ?_⟩,
    fun st msg code => ⟨rfl, rfl, fun code2 => ?_⟩⟩
  · simp [signalEventHandler, handleExit, h]
  · simp [errorEventHandler, handleExit, h]
  · simp [signalEventHandler, handleExit, h]
  · simp [errorEventHandler, handleExit, h]
  · simp [handleExit, h]
  · simp [handleExit, spinnerStop]

/-! ## Text metrics: `strip` and `ansiRegex` (lines 621 and 865-872)

The regex built by `ansiRegex()` is

`[\x1b\x9b][[\]()#;?]*(?:(?:(?:(?:;[-a-zA-Z\d\/#&.:=?%@~_]+)*|[a-zA-Z\d]+(?:;[-a-zA-Z\d\/#&.:=?%@~_]*)*)?\x07)|(?:(?:\d{1,4}(?:;\d{0,4})*)?[\dA-PR-TZcf-nq-uy=><~]))`

applied globally, and `strip` replaces every match with the empty string.
The matcher below hand-compiles this pattern. JavaScript regex semantics:
a match is searched at each position from left to right; at a match the scan
resumes after the matched text. At one position, the intro class
`[[\]()#;?]*` is greedy with backtracking and the two alternatives are tried
in order, so candidate intro lengths are explored from the longest down, and
for each the BEL alternative is tried before the CSI alternative.

* BEL alternative `X? \x07` with
  `X = (?:;[sym]+)* | [a-zA-Z\d]+(?:;[sym]*)*`: every word of `X` is
  BEL-free, so the alternative matches exactly when the segment up to the
  first following BEL is a word of `X?` (no other BEL is reachable), and it
  consumes through that BEL.
* CSI alternative `(?:\d{1,4}(?:;\d{0,4})*)? [final]`: the quantifiers are
  greedy with backtracking, and every backtracking step shortens the
  consumed prefix by one character (shrinking a digit group, dropping a
  `;`-group, or dropping one digit of the leading group frees a digit which
  can never start a new `;`-group), so the alternative matches with the
  longest prefix `p` in the prefix language such that the character after
  `p` is in the final class, consuming `p` plus that final character. -/

def isEscIntro (c : Char) : Bool := c = '\x1b' || c = '\x9b'

/-- The intro class `[[\]()#;?]`. -/
def isIntroClass (c : Char) : Bool :=
  c = '[' || c = ']' || c = '(' || c = ')' || c = '#' || c = ';' || c = '?'

/-- The class `[a-zA-Z\d]`. -/
def isAlnumClass (c : Char) : Bool := c.isAlpha || c.isDigit

/-- The class `[-a-zA-Z\d\/#&.:=?%@~_]`. -/
def isSymClass (c : Char) : Bool :=
  c = '-' || c.isAlpha || c.isDigit || c = '/' || c = '#' || c = '&' ||
  c = '.' || c = ':' || c = '=' || c = '?' || c = '%' || c = '@' ||
  c = '~' || c = '_'

/-- The final-byte class `[\dA-PR-TZcf-nq-uy=><~]`. -/
def isFinalClass (c : Char) : Bool :=
  c.isDigit || (decide ('A' ≤ c) && decide (c ≤ 'P')) ||
  (decide ('R' ≤ c) && decide (c ≤ 'T')) || c = 'Z' || c = 'c' ||
  (decide ('f' ≤ c) && decide (c ≤ 'n')) ||
  (decide ('q' ≤ c) && decide (c ≤ 'u')) || c = 'y' ||
  c = '=' || c = '>' || c = '<' || c = '~'

/-- Continuation of a word of `(?:;[sym]+)*` after at least one `[sym]`
character of the current group has been consumed. -/
def isB1Cont : List Char → Bool
  | [] => true
  | c :: rest =>
    if c = ';' then
      match rest with
      | [] => false
      | c2 :: r2 => isSymClass c2 && isB1Cont r2
    else isSymClass c && isB1Cont rest

/-- The words of the first `X` branch `(?:;[sym]+)*` (the empty word is
handled by `isXWordOpt`). -/
def isB1 : List Char → Bool
  | [] => true
  | c :: rest =>
    c = ';' &&
      (match rest with
       | [] => false
       | c2 :: r2 => isSymClass c2 && isB1Cont r2)

/-- After the leading `[a-zA-Z\d]+` run of the second `X` branch: more
alphanumerics, then `(?:;[sym]*)*`, which accepts exactly the strings over
`[sym] ∪ {;}` that start with `;` (each `;` opens a group, `[sym]*` may be
empty). -/
def isB2Rest : List Char → Bool
  | [] => true
  | c :: rest =>
    if isAlnumClass c then isB2Rest rest
    else c = ';' && (c :: rest).all (fun x => isSymClass x || x = ';')

/-- The words of the second `X` branch `[a-zA-Z\d]+(?:;[sym]*)*`. -/
def isB2 : List Char → Bool
  | [] => false
  | c :: rest => isAlnumClass c && isB2Rest rest

/-- The words of `X?`. -/
def isXWordOpt (w : List Char) : Bool := w.isEmpty || isB1 w || isB2 w

/-- Index of the first BEL character, if any. -/
def belIndex? : List Char → Option Nat
  | [] => none
  | c :: cs => if c = '\x07' then some 0 else (belIndex? cs).map (fun n => n + 1)

/-- The BEL alternative `(?:X? \x07)`: it matches iff the segment up to the
first BEL is a word of `X?` (see the module comment), consuming through that
BEL. -/
def matchAlt1 (l : List Char) : Option Nat :=
  match belIndex? l with
  | none => none
  | some q => if isXWordOpt (l.take q) then some (q + 1) else none

/-- The words of the CSI parameter prefix `\d{1,4}(?:;\d{0,4})*`: split on
`;`, the leading segment is 1-4 digits and every later segment is 0-4
digits. -/
def isDigitPrefixLang (w : List Char) : Bool :=
  match splitOnChar ';' w with
  | [] => false
  | s0 :: segs =>
    decide (1 ≤ s0.length) && decide (s0.length ≤ 4) && s0.all Char.isDigit &&
    segs.all (fun s => decide (s.length ≤ 4) && s.all Char.isDigit)

/-- The CSI alternative `(?:(?:\d{1,4}(?:;\d{0,4})*)?[final])`: the longest
prefix in the parameter language (or the empty prefix) followed by a
final-class character wins (see the module comment). -/
def matchAlt2 (l : List Char) : Option Nat :=
  (List.range l.length).reverse.findSome? fun p =>
    if p = 0 ∨ isDigitPrefixLang (l.take p) = true then
      match l.drop p with
      | c :: _ => if isFinalClass c then some (p + 1) else none
      | [] => none
    else none

/-- The body after the introducer: greedy `[[\]()#;?]*` with backtracking,
then the BEL alternative, then the CSI alternative. -/
def matchEscBody (l : List Char) : Option Nat :=
  (List.range ((l.takeWhile isIntroClass).length + 1)).reverse.findSome? fun k =>
    match matchAlt1 (l.drop k) with
    | some n => some (k + n)
    | none =>
      match matchAlt2 (l.drop k) with
      | some n => some (k + n)
      | none => none

/-- Length of the regex match starting at the head of `l`, if any. -/
def matchAnsiAt : List Char → Option Nat
  | [] => none
  | c :: cs =>
    if isEscIntro c then (matchEscBody cs).map (fun n => n + 1) else none

/-- One fuel step per scanned position suffices because every match consumes
at least the introducer character. -/
def stripFuel : Nat → List Char → List Char
  | 0, l => l
  | _ + 1, [] => []
  | fuel + 1, c :: cs =>
    match matchAnsiAt (c :: cs) with
    | some n => stripFuel fuel (cs.drop (n - 1))
    | none => c :: stripFuel fuel cs

/-- `strip` (line 621): `str.replace(ansiRegex(), '')`. -/
def strip (s : JSStr) : JSStr := stripFuel s.length s

/-- The visible length of a string: its length after stripping ANSI escape
sequences. -/
def visibleLength (s : JSStr) : Nat := (strip s).length

example : strip "a\x1b[31mb".data = "ab".data := by decide

example : strip "\x1b[38;5;196mx\x1b[0m".data = "x".data := by decide

example : strip "a\x1b]0;title\x07b".data = "ab".data := by decide

example : strip "\x1b[2m\x1b[22m".data = [] := by decide

example : strip "a\x07b".data = "a\x07b".data := by decide

theorem symClass_not_ctrl (c : Char) (h : isSymClass c = true) :
    c ≠ '\x1b' ∧ c ≠ '\x9b' ∧ c ≠ '\x07' := by
  refine ⟨?_, ?_, ?_⟩ <;> rintro rfl <;> exact absurd h (by decide)

theorem semi_not_ctrl (c : Char) (h : c = ';') :
    c ≠ '\x1b' ∧ c ≠ '\x9b' ∧ c ≠ '\x07' := by
  subst h
  refine ⟨by decide, by decide, by decide⟩

theorem alnum_sym (c : Char) (h : isAlnumClass c = true) : isSymClass c = true := by
  simp only [isAlnumClass, Bool.or_eq_true] at h
  simp only [isSymClass, Bool.or_eq_true]
  tauto

theorem isB1Cont_mem :
    ∀ (l : List Char), isB1Cont l = true →
      ∀ c ∈ l, isSymClass c = true ∨ c = ';'
  | [], _, c, hc => absurd hc (by simp)
  | c0 :: rest, h, c, hc => by
    unfold isB1Cont at h
    split_ifs at h with hsemi
    · cases rest with
      | nil => simp at h
      | cons c2 r2 =>
        simp only [Bool.and_eq_true] at h
        rcases List.mem_cons.mp hc with rfl | hm
        · right; exact hsemi
        · rcases List.mem_cons.mp hm with rfl | hm2
          · left; exact h.1
          · exact isB1Cont_mem r2 h.2 c hm2
    · simp only [Bool.and_eq_true] at h
      rcases List.mem_cons.mp hc with rfl | hm
      · left; exact h.1
      · exact isB1Cont_mem rest h.2 c hm

theorem isB1_mem (l : List Char) (h : isB1 l = true) :
    ∀ c ∈ l, isSymClass c = true ∨ c = ';' := by
  cases l with
  | nil => intro c hc; exact absurd hc (by simp)
  | cons c0 rest =>
    intro c hc
    unfold isB1 at h
    simp only [Bool.and_eq_true, decide_eq_true_eq] at h
    obtain ⟨rfl, h2⟩ := h
    cases rest with
    | nil => simp at h2
    | cons c2 r2 =>
      simp only [Bool.and_eq_true] at h2
      rcases List.mem_cons.mp hc with rfl | hm
      · right; rfl
      · rcases List.mem_cons.mp hm with rfl | hm2
        · left; exact h2.1
        · exact isB1Cont_mem r2 h2.2 c hm2

theorem isB2Rest_mem :
    ∀ (l : List Char), isB2Rest l = true →
      ∀ c ∈ l, isSymClass c = true ∨ c = ';'
  | [], _, c, hc => absurd hc (by simp)
  | c0 :: rest, h, c, hc => by
    unfold isB2Rest at h
    split_ifs at h with halnum
    · rcases List.mem_cons.mp hc with rfl | hm
      · left; exact alnum_sym c halnum
      · exact isB2Rest_mem rest h c hm
    · simp only [Bool.and_eq_true, decide_eq_true_eq, List.all_eq_true,
        Bool.or_eq_true] at h
      rcases h.2 c hc with hs | hs
      · left; exact hs
      · right; exact hs

theorem isB2_mem (l : List Char) (h : isB2 l = true) :
    ∀ c ∈ l, isSymClass c = true ∨ c = ';' := by
  cases l with
  | nil => intro c hc; exact absurd hc (by simp)
  | cons c0 rest =>
    intro c hc
    unfold isB2 at h
    simp only [Bool.and_eq_true] at h
    rcases List.mem_cons.mp hc with rfl | hm
    · left; exact alnum_sym c h.1
    · exact isB2Rest_mem rest h.2 c hm

theorem xwordOpt_mem (w : List Char) (h : isXWordOpt w = true) :
    ∀ c ∈ w, isSymClass c = true ∨ c = ';' := by
  unfold isXWordOpt at h
  simp only [Bool.or_eq_true] at h
  rcases h with (h | h) | h
  · intro c hc
    rw [List.isEmpty_iff.mp h] at hc
    exact absurd hc (by simp)
  · exact isB1_mem w h
  · exact isB2_mem w h

theorem xword_no_ctrl (w : List Char) (h : isXWordOpt w = true) :
    '\x1b' ∉ w ∧ '\x9b' ∉ w ∧ '\x07' ∉ w := by
  refine ⟨fun hm => ?_, fun hm => ?_, fun hm => ?_⟩ <;>
    rcases xwordOpt_mem w h _ hm with hs | hs <;>
      exact absurd hs (by decide)

theorem belIndex?_split :
    ∀ (l : List Char) (q : Nat), belIndex? l = some q →
      ∃ u v, l = u ++ '\x07' :: v ∧ u.length = q ∧ '\x07' ∉ u
  | [], q, h => by simp [belIndex?] at h
  | c :: cs, q, h => by
    unfold belIndex? at h
    split_ifs at h with hc
    · subst hc
      obtain rfl : 0 = q := by simpa using h
      exact ⟨[], cs, rfl, rfl, by simp⟩
    · rcases Option.map_eq_some'.mp h with ⟨m, hm, rfl⟩
      obtain ⟨u, v, rfl, hlen, hnb⟩ := belIndex?_split cs m hm
      refine ⟨c :: u, v, rfl, by simp [hlen], ?_⟩
      intro hmem
      rcases List.mem_cons.mp hmem with heq | hmem2
      · exact hc heq.symm
      · exact hnb hmem2

theorem belIndex?_none :
    ∀ (l : List Char), '\x07' ∉ l → belIndex? l = none
  | [], _ => rfl
  | c :: cs, h => by
    unfold belIndex?
    have hc : ¬ c = '\x07' := fun he => h (by simp [he])
    rw [if_neg hc, belIndex?_none cs (fun hm => h (List.mem_cons_of_mem c hm))]
    rfl

theorem belIndex?_append_bel (u v : List Char) (hu : '\x07' ∉ u) :
    belIndex? (u ++ '\x07' :: v) = some u.length := by
  induction u with
  | nil => simp [belIndex?]
  | cons c cs ih =>
    have hc : ¬ c = '\x07' := fun he => hu (by simp [he])
    have hcs : '\x07' ∉ cs := fun hm => hu (List.mem_cons_of_mem c hm)
    show belIndex? (c :: (cs ++ '\x07' :: v)) = some (cs.length + 1)
    unfold belIndex?
    rw [if_neg hc, ih hcs]
    rfl

/-- Every BEL in the list is preceded by an introducer character. -/
def belGuarded (l : List Char) : Prop :=
  ∀ (a b : List Char), l = a ++ '\x07' :: b → ∃ e ∈ a, isEscIntro e = true

theorem belGuarded_nil : belGuarded [] := by
  intro a b h
  exact absurd h (by simp)

theorem belGuarded_cons_esc (e : Char) (he : isEscIntro e = true) (l : List Char) :
    belGuarded (e :: l) := by
  intro a b h
  cases a with
  | nil =>
    simp only [List.nil_append, List.cons.injEq] at h
    rw [h.1] at he
    exact absurd he (by decide)
  | cons a0 a' =>
    simp only [List.cons_append, List.cons.injEq] at h
    exact ⟨a0, by simp, h.1 ▸ he⟩

theorem belGuarded_append (u v : List Char) (hu : '\x07' ∉ u)
    (hv : belGuarded v) : belGuarded (u ++ v) := by
  intro a b h
  rcases List.append_eq_append_iff.mp h.symm with ⟨t, hut, hbt⟩ | ⟨t, hat, hvt⟩
  · -- u = a ++ t and '\x07' :: b = t ++ v
    cases t with
    | nil =>
      obtain ⟨e, het, _⟩ := hv [] b (by simpa using hbt.symm)
      exact absurd het (by simp)
    | cons t0 t' =>
      have ht0 : t0 = '\x07' := by
        simp only [List.cons_append, List.cons.injEq] at hbt
        exact hbt.1.symm
      have hmem : '\x07' ∈ a ++ t0 :: t' := by
        rw [ht0] at *
        exact List.mem_append_right a (List.mem_cons_self _ _)
      rw [← hut] at hmem
      exact absurd hmem hu
  · -- a = u ++ t and v = t ++ '\x07' :: b
    obtain ⟨e, het, hesc⟩ := hv t b hvt
    exact ⟨e, by rw [hat]; exact List.mem_append_right u het, hesc⟩

theorem matchAlt1_none_of_guarded (l : List Char) (hg : belGuarded l) :
    matchAlt1 l = none := by
  unfold matchAlt1
  cases hq : belIndex? l with
  | none => rfl
  | some q =>
    obtain ⟨u, v, rfl, hlen, hnb⟩ := belIndex?_split l q hq
    obtain ⟨e, heu, hesc⟩ := hg u v rfl
    have htake : (u ++ '\x07' :: v).take q = u := by
      rw [← hlen]
      exact List.take_left u ('\x07' :: v)
    have hx : isXWordOpt u = false := by
      by_contra hcon
      have hx2 : isXWordOpt u = true := by
        cases hxx : isXWordOpt u
        · exact absurd hxx hcon
        · rfl
      obtain ⟨h1b, h9b, _⟩ := xword_no_ctrl u hx2
      have := hesc
      simp only [isEscIntro, Bool.or_eq_true, decide_eq_true_eq] at this
      rcases this with rfl | rfl
      · exact h1b heu
      · exact h9b heu
    show (if isXWordOpt ((u ++ '\x07' :: v).take q) = true then some (q + 1)
        else none) = none
    rw [htake, hx]
    rfl

theorem matchAlt1_exact (payload rest : List Char)
    (hp : isXWordOpt payload = true) :
    matchAlt1 (payload ++ '\x07' :: rest) = some (payload.length + 1) := by
  have hnb : '\x07' ∉ payload := (xword_no_ctrl payload hp).2.2
  unfold matchAlt1
  rw [belIndex?_append_bel payload rest hnb]
  show (if isXWordOpt ((payload ++ '\x07' :: rest).take payload.length) = true
      then some (payload.length + 1) else none) = some (payload.length + 1)
  rw [List.take_left, hp]
  rfl

theorem splitOnChar_ne_nil (sep : Char) : ∀ l : List Char, splitOnChar sep l ≠ []
  | [] => by simp [splitOnChar]
  | c :: cs => by
    unfold splitOnChar
    split_ifs
    · simp
    · cases hr : splitOnChar sep cs with
      | nil => simp
      | cons s ss => simp

theorem splitOnChar_mem_chars (sep : Char) :
    ∀ (l : List Char) (c : Char), c ∈ l →
      c = sep ∨ ∃ s ∈ splitOnChar sep l, c ∈ s
  | [], c, hc => absurd hc (by simp)
  | c0 :: cs, c, hc => by
    unfold splitOnChar
    split_ifs with h0
    · rcases List.mem_cons.mp hc with rfl | hm
      · left; exact h0
      · rcases splitOnChar_mem_chars sep cs c hm with hs | ⟨s, hsm, hcm⟩
        · left; exact hs
        · right; exact ⟨s, List.mem_cons_of_mem _ hsm, hcm⟩
    · cases hr : splitOnChar sep cs with
      | nil => exact absurd hr (splitOnChar_ne_nil sep cs)
      | cons s ss =>
        rcases List.mem_cons.mp hc with rfl | hm
        · right; exact ⟨c :: s, by simp, by simp⟩
        · rcases splitOnChar_mem_chars sep cs c hm with hs | ⟨s2, hsm, hcm⟩
          · left; exact hs
          · rw [hr] at hsm
            rcases List.mem_cons.mp hsm with rfl | hsm2
            · right; exact ⟨c0 :: s2, by simp, List.mem_cons_of_mem _ hcm⟩
            · right; exact ⟨s2, List.mem_cons_of_mem _ hsm2, hcm⟩

theorem digitPrefixLang_chars (w : List Char) (h : isDigitPrefixLang w = true) :
    ∀ c ∈ w, c.isDigit = true ∨ c = ';' := by
  intro c hc
  unfold isDigitPrefixLang at h
  rcases splitOnChar_mem_chars ';' w c hc with hs | ⟨s, hsm, hcm⟩
  · right; exact hs
  · left
    cases hr : splitOnChar ';' w with
    | nil => exact absurd hr (splitOnChar_ne_nil ';' w)
    | cons s0 segs =>
      rw [hr] at h hsm
      simp only [Bool.and_eq_true, decide_eq_true_eq, List.all_eq_true] at h
      rcases List.mem_cons.mp hsm with rfl | hsm2
      · exact h.1.2 c hcm
      · exact (h.2 s hsm2).2 c hcm

theorem splitOn_groups :
    ∀ (gs : List (List Char)) (fg : List Char), ';' ∉ fg →
      (∀ g ∈ gs, ';' ∉ g) →
      splitOnChar ';' (fg ++ (gs.map (fun g => ';' :: g)).flatten) = fg :: gs
  | [], fg, hfg, _ => by
    simp only [List.map_nil, List.flatten_nil, List.append_nil]
    exact splitOnChar_no_sep ';' fg hfg
  | g :: gs', fg, hfg, hgs => by
    have hstep : fg ++ ((g :: gs').map (fun g => ';' :: g)).flatten
        = fg ++ ';' :: (g ++ (gs'.map (fun g => ';' :: g)).flatten) := by
      simp
    rw [hstep, splitOnChar_append_sep ';' fg _ hfg,
      splitOn_groups gs' g (hgs g (by simp))
        (fun g2 hg2 => hgs g2 (by simp [hg2]))]

theorem findSome?_reverse_range {β : Type} (g : Nat → Option β) (v : β) :
    ∀ (n t : Nat), t < n → (∀ p, t < p → p < n → g p = none) → g t = some v →
      (List.range n).reverse.findSome? g = some v
  | 0, t, ht, _, _ => absurd ht (by omega)
  | n + 1, t, ht, hnone, hsome => by
    have hrev : (List.range (n + 1)).reverse = n :: (List.range n).reverse := by
      rw [List.range_succ]
      simp
    rw [hrev, List.findSome?_cons]
    rcases Nat.lt_or_ge t n with htn | htn
    · rw [hnone n htn (by omega)]
      exact findSome?_reverse_range g v n t htn
        (fun p hp1 hp2 => hnone p hp1 (by omega)) hsome
    · have : t = n := by omega
      subst this
      rw [hsome]

theorem matchAlt2_exact (params : List Char) (f : Char) (rest : List Char)
    (hw : params = [] ∨ isDigitPrefixLang params = true)
    (hf : isFinalClass f = true) (hfd : f.isDigit = false) (hfs : f ≠ ';') :
    matchAlt2 (params ++ f :: rest) = some (params.length + 1) := by
  unfold matchAlt2
  have hlen : (params ++ f :: rest).length = params.length + rest.length + 1 := by
    simp only [List.length_append, List.length_cons]
    omega
  apply findSome?_reverse_range _ _ _ params.length (by omega)
  · -- every longer prefix contains the final byte, which is neither a digit
    -- nor a semicolon, so it is not in the parameter language
    intro p hp1 hp2
    have hne0 : ¬ p = 0 := by omega
    have hmem : f ∈ (params ++ f :: rest).take p := by
      rw [List.take_append_eq_append_take,
        List.take_of_length_le (by omega : params.length ≤ p)]
      apply List.mem_append_right
      cases hpp : p - params.length with
      | zero => omega
      | succ m => simp [List.take_cons]
    have hlang : ¬ isDigitPrefixLang ((params ++ f :: rest).take p) = true := by
      intro hcon
      rcases digitPrefixLang_chars _ hcon f hmem with hd | hs
      · rw [hfd] at hd; exact absurd hd (by simp)
      · exact hfs hs
    rw [if_neg (by push_neg; exact ⟨hne0, by simpa using hlang⟩)]
  · -- at exactly the parameter prefix, the next character is a final byte
    have hcond : params.length = 0 ∨
        isDigitPrefixLang ((params ++ f :: rest).take params.length) = true := by
      rcases hw with rfl | hw
      · left; rfl
      · right; rw [List.take_left]; exact hw
    rw [if_pos hcond]
    have hdrop : (params ++ f :: rest).drop params.length = f :: rest :=
      List.drop_left params (f :: rest)
    rw [hdrop]
    simp [hf]

/-! ## Well-formed escape sequences

A representative grammar, modelled from the spec (`visibleLength` removes
"CSI sequences and OSC-style sequences terminated by BEL or a final byte in
a defined range"), restricted to the character sets of the `ansiRegex`
pattern: a CSI sequence is an introducer, `[`, an optional parameter list
(a leading group of 1-4 digits followed by `;`-separated groups of 0-4
digits) and a non-digit final byte; an OSC-style sequence is an introducer,
`]`, an alphanumeric-led payload over the regex's symbol charset (or an
empty payload), terminated by BEL. Plain text is any character that is not
an introducer and not a BEL. -/

structure CsiSeq where
  esc : Char
  firstGroup : List Char
  moreGroups : List (List Char)
  final : Char
deriving DecidableEq

structure OscSeq where
  esc : Char
  payload : List Char
deriving DecidableEq

inductive Block where
  | plain : Char → Block
  | csi : CsiSeq → Block
  | osc : OscSeq → Block
deriving DecidableEq

/-- The parameter text of a CSI sequence. -/
def csiParams (x : CsiSeq) : List Char :=
  x.firstGroup ++ (x.moreGroups.map (fun g => ';' :: g)).flatten

def CsiSeq.toList (x : CsiSeq) : List Char :=
  x.esc :: '[' :: csiParams x ++ [x.final]

def OscSeq.toList (x : OscSeq) : List Char :=
  x.esc :: ']' :: x.payload ++ ['\x07']

def CsiSeq.valid (x : CsiSeq) : Bool :=
  isEscIntro x.esc && isFinalClass x.final && !x.final.isDigit &&
  (if x.firstGroup.isEmpty then x.moreGroups.isEmpty
   else decide (x.firstGroup.length ≤ 4) && x.firstGroup.all Char.isDigit) &&
  x.moreGroups.all (fun g => decide (g.length ≤ 4) && g.all Char.isDigit)

def OscSeq.valid (x : OscSeq) : Bool :=
  isEscIntro x.esc && (x.payload.isEmpty || isB2 x.payload)

def Block.toList : Block → List Char
  | .plain c => [c]
  | .csi x => x.toList
  | .osc x => x.toList

/-- What a terminal displays for a block: the character itself for plain
text, nothing for an escape sequence. -/
def Block.visible : Block → List Char
  | .plain c => [c]
  | .csi _ => []
  | .osc _ => []

def Block.valid : Block → Bool
  | .plain c => !(isEscIntro c || c = '\x07')
  | .csi x => x.valid
  | .osc x => x.valid

def blocksFlatten (bs : List Block) : List Char := (bs.map Block.toList).flatten

def blocksVisible (bs : List Block) : List Char := (bs.map Block.visible).flatten

theorem introClass_cases (c : Char) (h : isIntroClass c = true) :
    c = '[' ∨ c = ']' ∨ c = '(' ∨ c = ')' ∨ c = '#' ∨ c = ';' ∨ c = '?' := by
  simp only [isIntroClass, Bool.or_eq_true, decide_eq_true_eq] at h
  tauto

theorem digit_not_introClass (c : Char) (h : c.isDigit = true) :
    isIntroClass c = false := by
  cases hi : isIntroClass c
  · rfl
  · rcases introClass_cases c hi with rfl|rfl|rfl|rfl|rfl|rfl|rfl <;>
      exact absurd h (by decide)

theorem final_not_introClass (c : Char) (h : isFinalClass c = true) :
    isIntroClass c = false := by
  cases hi : isIntroClass c
  · rfl
  · rcases introClass_cases c hi with rfl|rfl|rfl|rfl|rfl|rfl|rfl <;>
      exact absurd h (by decide)

theorem alnum_not_introClass (c : Char) (h : isAlnumClass c = true) :
    isIntroClass c = false := by
  cases hi : isIntroClass c
  · rfl
  · rcases introClass_cases c hi with rfl|rfl|rfl|rfl|rfl|rfl|rfl <;>
      exact absurd h (by decide)

theorem digit_ne_semi (c : Char) (h : c.isDigit = true) : c ≠ ';' := by
  rintro rfl
  exact absurd h (by decide)

theorem digit_ne_bel (c : Char) (h : c.isDigit = true) : c ≠ '\x07' := by
  rintro rfl
  exact absurd h (by decide)

theorem final_ne_bel (c : Char) (h : isFinalClass c = true) : c ≠ '\x07' := by
  rintro rfl
  exact absurd h (by decide)

theorem final_ne_semi (c : Char) (h : isFinalClass c = true) : c ≠ ';' := by
  rintro rfl
  exact absurd h (by decide)

theorem csiParams_chars (x : CsiSeq) (hv : x.valid = true) :
    ∀ c ∈ csiParams x, c.isDigit = true ∨ c = ';' := by
  intro c hc
  unfold CsiSeq.valid at hv
  simp only [Bool.and_eq_true, List.all_eq_true, Bool.and_eq_true,
    decide_eq_true_eq] at hv
  rcases List.mem_append.mp hc with hm | hm
  · left
    cases hfg : x.firstGroup with
    | nil =>
      rw [hfg] at hm
      exact absurd hm (by simp)
    | cons d fg' =>
      have hcond := hv.1.2
      rw [hfg] at hcond hm
      simp only [List.isEmpty_cons, Bool.false_eq_true, if_false,
        Bool.and_eq_true, decide_eq_true_eq, List.all_eq_true] at hcond
      exact hcond.2 c hm
  · rcases List.mem_flatten.mp hm with ⟨g2, hg2, hcg2⟩
    rcases List.mem_map.mp hg2 with ⟨g, hg, rfl⟩
    rcases List.mem_cons.mp hcg2 with rfl | hcg
    · right; rfl
    · left; exact (hv.2 g hg).2 c hcg

theorem csiParams_lang (x : CsiSeq) (hv : x.valid = true) :
    csiParams x = [] ∨
      (isDigitPrefixLang (csiParams x) = true ∧
        ∃ c cs, csiParams x = c :: cs ∧ c.isDigit = true) := by
  have hv2 := hv
  unfold CsiSeq.valid at hv2
  simp only [Bool.and_eq_true, List.all_eq_true, Bool.and_eq_true,
    decide_eq_true_eq] at hv2
  cases hfg : x.firstGroup with
  | nil =>
    left
    have hmg : x.moreGroups.isEmpty = true := by
      have := hv2.1.2
      rw [hfg] at this
      simpa using this
    unfold csiParams
    rw [hfg, List.isEmpty_iff.mp hmg]
    rfl
  | cons c fg' =>
    right
    have hfgfacts : x.firstGroup.length ≤ 4 ∧ ∀ d ∈ x.firstGroup, d.isDigit = true := by
      have hcond := hv2.1.2
      rw [hfg] at hcond
      simp only [List.isEmpty_cons, Bool.false_eq_true, if_false,
        Bool.and_eq_true, decide_eq_true_eq, List.all_eq_true] at hcond
      rw [← hfg] at hcond
      exact hcond
    have hnos : ';' ∉ x.firstGroup := fun hm =>
      digit_ne_semi ';' (hfgfacts.2 ';' hm) rfl
    have hnog : ∀ g ∈ x.moreGroups, ';' ∉ g := fun g hg hm =>
      digit_ne_semi ';' ((hv2.2 g hg).2 ';' hm) rfl
    have hsplit := splitOn_groups x.moreGroups x.firstGroup hnos hnog
    constructor
    · unfold isDigitPrefixLang csiParams
      rw [hsplit]
      simp only [Bool.and_eq_true, decide_eq_true_eq, List.all_eq_true]
      refine ⟨⟨⟨by rw [hfg]; simp, hfgfacts.1⟩, fun d hd => by
        simp [hfgfacts.2 d hd]⟩, fun g hg => ⟨by simp [(hv2.2 g hg).1],
          fun d hd => by simp [(hv2.2 g hg).2 d hd]⟩⟩
    · refine ⟨c, fg' ++ (x.moreGroups.map (fun g => ';' :: g)).flatten, ?_, ?_⟩
      · unfold csiParams
        rw [hfg]
        rfl
      · exact hfgfacts.2 c (by rw [hfg]; simp)

theorem matchAnsiAt_not_esc (c : Char) (cs : List Char)
    (h : isEscIntro c = false) : matchAnsiAt (c :: cs) = none := by
  simp [matchAnsiAt, h]

theorem matchAnsiAt_pos (l : List Char) (n : Nat) (h : matchAnsiAt l = some n) :
    1 ≤ n := by
  cases l with
  | nil => simp [matchAnsiAt] at h
  | cons c cs =>
    cases he : isEscIntro c with
    | false =>
      rw [matchAnsiAt_not_esc c cs he] at h
      exact absurd h (by simp)
    | true =>
      have hred : matchAnsiAt (c :: cs)
          = (matchEscBody cs).map (fun n => n + 1) := by
        simp [matchAnsiAt, he]
      rw [hred] at h
      rcases Option.map_eq_some'.mp h with ⟨m, _, rfl⟩
      omega

theorem stripFuel_congr :
    ∀ (f : Nat), ∀ (g : Nat) (l : List Char), l.length ≤ f → l.length ≤ g →
      stripFuel f l = stripFuel g l := by
  intro f
  induction f with
  | zero =>
    intro g l hf _
    have : l = [] := List.length_eq_zero.mp (by omega)
    subst this
    cases g <;> rfl
  | succ f ih =>
    intro g l hf hg
    cases l with
    | nil => cases g <;> rfl
    | cons c cs =>
      cases g with
      | zero => simp at hg
      | succ g =>
        simp only [List.length_cons] at hf hg
        cases hm : matchAnsiAt (c :: cs) with
        | some n =>
          simp only [stripFuel, hm]
          apply ih
          · simp only [List.length_drop]; omega
          · simp only [List.length_drop]; omega
        | none =>
          simp only [stripFuel, hm]
          rw [ih g cs (by omega) (by omega)]

theorem strip_cons_none (c : Char) (cs : List Char)
    (h : matchAnsiAt (c :: cs) = none) : strip (c :: cs) = c :: strip cs := by
  show stripFuel (cs.length + 1) (c :: cs) = _
  simp only [stripFuel, h]
  rfl

theorem strip_match (l : List Char) (n : Nat) (h : matchAnsiAt l = some n) :
    strip l = strip (l.drop n) := by
  have hn := matchAnsiAt_pos l n h
  cases l with
  | nil => simp [matchAnsiAt] at h
  | cons c cs =>
    show stripFuel (cs.length + 1) (c :: cs) = _
    simp only [stripFuel, h]
    have hdrop : (c :: cs).drop n = cs.drop (n - 1) := by
      cases n with
      | zero => omega
      | succ m => simp
    rw [hdrop]
    exact stripFuel_congr cs.length _ (cs.drop (n - 1))
      (by simp only [List.length_drop]; omega) (le_refl _)

theorem matchAnsiAt_csi (x : CsiSeq) (rest : List Char) (hv : x.valid = true)
    (hrest : belGuarded rest) :
    matchAnsiAt (x.toList ++ rest) = some x.toList.length := by
  have hv2 := hv
  unfold CsiSeq.valid at hv2
  simp only [Bool.and_eq_true, Bool.not_eq_eq_eq_not, Bool.not_true,
    decide_eq_true_eq] at hv2
  have hesc : isEscIntro x.esc = true := hv2.1.1.1.1
  have hfin : isFinalClass x.final = true := hv2.1.1.1.2
  have hfd : x.final.isDigit = false := hv2.1.1.2
  have hshape : x.toList ++ rest
      = x.esc :: ('[' :: (csiParams x ++ x.final :: rest)) := by
    unfold CsiSeq.toList
    simp
  have hdrop : ('[' :: (csiParams x ++ x.final :: rest)).drop 1
      = csiParams x ++ x.final :: rest := rfl
  have hg : belGuarded (csiParams x ++ x.final :: rest) := by
    have hnb : '\x07' ∉ csiParams x ++ [x.final] := by
      intro hm
      rcases List.mem_append.mp hm with hm | hm
      · rcases csiParams_chars x hv '\x07' hm with hd | hs
        · exact digit_ne_bel _ hd rfl
        · exact absurd hs (by decide)
      · have hbf : '\x07' = x.final := by simpa using hm
        exact final_ne_bel _ hfin hbf.symm
    have := belGuarded_append (csiParams x ++ [x.final]) rest hnb hrest
    simpa [List.append_assoc] using this
  have htw : (('[' :: (csiParams x ++ x.final :: rest)).takeWhile
      isIntroClass).length = 1 := by
    rw [List.takeWhile_cons_of_pos (by decide)]
    have htw2 : (csiParams x ++ x.final :: rest).takeWhile isIntroClass = [] := by
      rcases csiParams_lang x hv with hnil | ⟨_, c, cs, hcons, hcd⟩
      · rw [hnil]
        simp only [List.nil_append]
        exact List.takeWhile_cons_of_neg (by simp [final_not_introClass _ hfin])
      · rw [hcons]
        simp only [List.cons_append]
        exact List.takeWhile_cons_of_neg (by simp [digit_not_introClass c hcd])
    rw [htw2]
    rfl
  have halt2 : matchAlt2 (csiParams x ++ x.final :: rest)
      = some ((csiParams x).length + 1) := by
    apply matchAlt2_exact
    · rcases csiParams_lang x hv with h | ⟨h, _⟩
      · left; exact h
      · right; exact h
    · exact hfin
    · exact hfd
    · exact final_ne_semi _ hfin
  have hbody : matchEscBody ('[' :: (csiParams x ++ x.final :: rest))
      = some (1 + ((csiParams x).length + 1)) := by
    unfold matchEscBody
    rw [htw]
    apply findSome?_reverse_range _ _ (1 + 1) 1 (by omega)
      (fun p hp1 hp2 => absurd hp1 (by omega))
    simp only [hdrop, matchAlt1_none_of_guarded _ hg, halt2]
  rw [hshape]
  simp only [matchAnsiAt, hesc, if_pos, hbody, Option.map_some']
  have hlen : x.toList.length = (csiParams x).length + 3 := by
    unfold CsiSeq.toList
    simp
  rw [hlen]
  congr 1
  omega

theorem matchAnsiAt_osc (x : OscSeq) (rest : List Char) (hv : x.valid = true) :
    matchAnsiAt (x.toList ++ rest) = some x.toList.length := by
  have hv2 := hv
  unfold OscSeq.valid at hv2
  simp only [Bool.and_eq_true, Bool.or_eq_true] at hv2
  have hesc : isEscIntro x.esc = true := hv2.1
  have hxw : isXWordOpt x.payload = true := by
    unfold isXWordOpt
    rcases hv2.2 with h | h
    · simp [h]
    · simp [h]
  have hshape : x.toList ++ rest
      = x.esc :: (']' :: (x.payload ++ '\x07' :: rest)) := by
    unfold OscSeq.toList
    simp
  have hdrop : (']' :: (x.payload ++ '\x07' :: rest)).drop 1
      = x.payload ++ '\x07' :: rest := rfl
  have htw : ((']' :: (x.payload ++ '\x07' :: rest)).takeWhile
      isIntroClass).length = 1 := by
    rw [List.takeWhile_cons_of_pos (by decide)]
    have htw2 : (x.payload ++ '\x07' :: rest).takeWhile isIntroClass = [] := by
      cases hp : x.payload with
      | nil =>
        simp only [List.nil_append]
        exact List.takeWhile_cons_of_neg (by decide)
      | cons c p' =>
        have hb2 : isB2 x.payload = true := by
          rcases hv2.2 with h | h
          · rw [List.isEmpty_iff.mp h] at hp
            exact absurd hp (by simp)
          · exact h
        have halnum : isAlnumClass c = true := by
          rw [hp] at hb2
          simp only [isB2, Bool.and_eq_true] at hb2
          exact hb2.1
        simp only [List.cons_append]
        exact List.takeWhile_cons_of_neg (by simp [alnum_not_introClass c halnum])
    rw [htw2]
    rfl
  have hbody : matchEscBody (']' :: (x.payload ++ '\x07' :: rest))
      = some (1 + (x.payload.length + 1)) := by
    unfold matchEscBody
    rw [htw]
    apply findSome?_reverse_range _ _ (1 + 1) 1 (by omega)
      (fun p hp1 hp2 => absurd hp1 (by omega))
    simp only [hdrop, matchAlt1_exact x.payload rest hxw]
  rw [hshape]
  simp only [matchAnsiAt, hesc, if_pos, hbody, Option.map_some']
  have hlen : x.toList.length = x.payload.length + 3 := by
    unfold OscSeq.toList
    simp
  rw [hlen]
  congr 1
  omega

theorem blocksFlatten_cons (b : Block) (bs : List Block) :
    blocksFlatten (b :: bs) = b.toList ++ blocksFlatten bs := by
  simp [blocksFlatten]

theorem blocksVisible_cons (b : Block) (bs : List Block) :
    blocksVisible (b :: bs) = b.visible ++ blocksVisible bs := by
  simp [blocksVisible]

theorem blocksFlatten_belGuarded :
    ∀ (bs : List Block), (∀ b ∈ bs, b.valid = true) →
      belGuarded (blocksFlatten bs)
  | [], _ => belGuarded_nil
  | b :: bs, h => by
    have hrest := blocksFlatten_belGuarded bs
      (fun x hx => h x (List.mem_cons_of_mem b hx))
    rw [blocksFlatten_cons]
    cases b with
    | plain c =>
      have hval := h (.plain c) (by simp)
      simp only [Block.valid, Bool.not_eq_eq_eq_not, Bool.not_true,
        Bool.or_eq_false_iff, decide_eq_false_iff_not] at hval
      apply belGuarded_append [c] _ _ hrest
      intro hm
      simp only [List.mem_singleton] at hm
      exact hval.2 hm.symm
    | csi x =>
      have hval : x.valid = true := h (.csi x) (by simp)
      have hesc : isEscIntro x.esc = true := by
        unfold CsiSeq.valid at hval
        simp only [Bool.and_eq_true] at hval
        exact hval.1.1.1.1
      show belGuarded (x.esc :: (('[' :: csiParams x ++ [x.final])
        ++ blocksFlatten bs))
      exact belGuarded_cons_esc _ hesc _
    | osc x =>
      have hval : x.valid = true := h (.osc x) (by simp)
      have hesc : isEscIntro x.esc = true := by
        unfold OscSeq.valid at hval
        simp only [Bool.and_eq_true] at hval
        exact hval.1
      show belGuarded (x.esc :: ((']' :: x.payload ++ ['\x07'])
        ++ blocksFlatten bs))
      exact belGuarded_cons_esc _ hesc _

theorem strip_blocks :
    ∀ (bs : List Block), (∀ b ∈ bs, b.valid = true) →
      strip (blocksFlatten bs) = blocksVisible bs
  | [], _ => rfl
  | b :: bs, h => by
    have hrest := fun x hx => h x (List.mem_cons_of_mem b hx)
    have hg := blocksFlatten_belGuarded bs hrest
    have hih := strip_blocks bs hrest
    rw [blocksFlatten_cons, blocksVisible_cons]
    cases b with
    | plain c =>
      have hval := h (.plain c) (by simp)
      simp only [Block.valid, Bool.not_eq_eq_eq_not, Bool.not_true,
        Bool.or_eq_false_iff, decide_eq_false_iff_not] at hval
      show strip (c :: blocksFlatten bs) = Block.visible (.plain c)
        ++ blocksVisible bs
      rw [strip_cons_none c _ (matchAnsiAt_not_esc c _ hval.1), hih]
      rfl
    | csi x =>
      have hval : x.valid = true := h (.csi x) (by simp)
      have hm := matchAnsiAt_csi x (blocksFlatten bs) hval hg
      show strip (x.toList ++ blocksFlatten bs)
          = ([] : List Char) ++ blocksVisible bs
      rw [strip_match _ _ hm, List.drop_left, hih]
      rfl
    | osc x =>
      have hval : x.valid = true := h (.osc x) (by simp)
      have hm := matchAnsiAt_osc x (blocksFlatten bs) hval
      show strip (x.toList ++ blocksFlatten bs)
          = ([] : List Char) ++ blocksVisible bs
      rw [strip_match _ _ hm, List.drop_left, hih]
      rfl

theorem blocksVisible_no_plain :
    ∀ bs : List Block, (∀ b ∈ bs, ∀ c : Char, b ≠ .plain c) →
      blocksVisible bs = []
  | [], _ => rfl
  | b :: bs, h => by
    rw [blocksVisible_cons]
    have hb : Block.visible b = [] := by
      cases b with
      | plain c => exact absurd rfl (h (.plain c) (by simp) c)
      | csi x => rfl
      | osc x => rfl
    rw [hb, blocksVisible_no_plain bs (fun x hx => h x (List.mem_cons_of_mem b hx))]
    rfl

theorem blocksFlatten_ne_nil (b : Block) (bs : List Block) :
    blocksFlatten (b :: bs) ≠ [] := by
  rw [blocksFlatten_cons]
  cases b <;> simp [Block.toList, CsiSeq.toList, OscSeq.toList]

/-- C7: `strip` (the ANSI-regex replacement) removes exactly the escape
sequences: for every interleaving of plain characters and well-formed
CSI/OSC escape sequences, the stripped string is the string with every
escape sequence manually removed, so `visibleLength` equals the length of
that manually stripped string; in particular a non-empty string consisting
only of escape sequences has visible length 0 while being non-empty. (The
embedding is purely functional, so the input string is never mutated.) -/
theorem strip_removes_escape_sequences :
    (∀ bs : List Block, (∀ b ∈ bs, b.valid = true) →
      strip (blocksFlatten bs) = blocksVisible bs ∧
      visibleLength (blocksFlatten bs) = (blocksVisible bs).length) ∧
    (∀ bs : List Block, bs ≠ [] → (∀ b ∈ bs, b.valid = true) →
      (∀ b ∈ bs, ∀ c : Char, b ≠ Block.plain c) →
      blocksFlatten bs ≠ [] ∧ visibleLength (blocksFlatten bs) = 0) := by
  constructor
  · intro bs hv
    refine ⟨strip_blocks bs hv, ?_⟩
    unfold visibleLength
    rw [strip_blocks bs hv]
  · intro bs hne hv hnp
    constructor
    · cases bs with
      | nil => exact absurd rfl hne
      | cons b bs => exact blocksFlatten_ne_nil b bs
    · unfold visibleLength
      rw [strip_blocks bs hv, blocksVisible_no_plain bs hnp]
      rfl

/-- Witness for C7: `'a'` + a red SGR sequence + `'b'` + an OSC title
sequence strips to `'ab'`, and a string made of the two escape sequences
alone is non-empty with visible length 0. -/
theorem strip_removes_escape_sequences_witness :
    strip "a\x1b[31mb\x1b]0;t\x07".data = "ab".data ∧
    "\x1b[31m\x1b]0;t\x07".data ≠ ([] : List Char) ∧
    visibleLength "\x1b[31m\x1b]0;t\x07".data = 0 := by
  have h1 := strip_removes_escape_sequences.1
    [Block.plain 'a', Block.csi ⟨'\x1b', ['3', '1'], [], 'm'⟩, Block.plain 'b',
     Block.osc ⟨'\x1b', ['0', ';', 't']⟩] (by decide)
  have h2 := strip_removes_escape_sequences.2
    [Block.csi ⟨'\x1b', ['3', '1'], [], 'm'⟩, Block.osc ⟨'\x1b', ['0', ';', 't']⟩]
    (by decide) (by decide) (by simp)
  exact ⟨h1.1, by decide, h2.2⟩

/-! ## Box layout: `buildBox` (src/prompt/index.ts lines 621-651) -/

/-- `lines = ('\n' + message + '\n').split('\n')` (line 623): the body lines
with a blank line prepended and appended. -/
def boxLines (message : JSStr) : List JSStr :=
  splitOnChar '\n' ('\n' :: message ++ ['\n'])

/-- `len` (lines 625-632): the maximum stripped line length (via the
`reduce` with the `ln.length > sum` comparison), at least the stripped title
length, plus 2 — the content width. -/
def boxLen (message title : JSStr) : Nat :=
  max ((boxLines message).foldl
      (fun sum ln => if sum < (strip ln).length then (strip ln).length else sum) 0)
    (strip title).length + 2

/-- One body row (lines 633-640): gray bar, two spaces, the (optionally
dimmed) line, space padding up to `len`, gray bar. -/
def boxRow (len : Nat) (dimmed : Bool) (ln : JSStr) : JSStr :=
  colorGray S_BAR ++ "  ".data ++ (if dimmed then colorDim ln else ln)
    ++ List.replicate (len - (strip ln).length) ' ' ++ colorGray S_BAR

def boxBodyRows (message title : JSStr) (dimmed : Bool) : List JSStr :=
  (boxLines message).map (boxRow (boxLen message title) dimmed)

/-- The horizontal-rule length of the top border (line 643):
`Math.max(len - titleLen - 1, 1)`. -/
def boxTopRule (message title : JSStr) : Int :=
  max ((boxLen message title : Int) - ((strip title).length : Int) - 1) 1

/-- The horizontal-rule length of the bottom border (line 644):
`len + 2`. -/
def boxBottomRule (message title : JSStr) : Nat := boxLen message title + 2

def repeatStr (s : JSStr) (n : Nat) : JSStr := (List.replicate n s).flatten

/-- `Array.prototype.join('\n')`. -/
def joinNl : List JSStr → JSStr
  | [] => []
  | [l] => l
  | l :: ls => l ++ '\n' :: joinNl ls

/-- The full string written by `buildBox` (lines 641-645). -/
def buildBox (message title : JSStr) (dimmed : Bool) : JSStr :=
  colorGray S_BAR ++ ['\n']
    ++ colorGreen S_STEP_SUBMIT ++ "  ".data ++ colorReset title ++ [' ']
    ++ colorGray (repeatStr S_BAR_H (boxTopRule message title).toNat
        ++ S_CORNER_TOP_RIGHT) ++ ['\n']
    ++ joinNl (boxBodyRows message title dimmed) ++ ['\n']
    ++ colorGray (S_CONNECT_LEFT ++ repeatStr S_BAR_H (boxBottomRule message title)
        ++ S_CORNER_BOTTOM_RIGHT) ++ ['\n']

/-- `note` (lines 648-649): a dimmed box. -/
def note (message title : JSStr) : JSStr := buildBox message title true

/-- `box` (lines 650-651): an undimmed box. -/
def box (message title : JSStr) : JSStr := buildBox message title false

theorem splitOnChar_joinNl_nl :
    ∀ (ls : List JSStr), ls ≠ [] → (∀ l ∈ ls, '\n' ∉ l) →
      splitOnChar '\n' (joinNl ls ++ ['\n']) = ls ++ [[]]
  | [], h, _ => absurd rfl h
  | [l], _, hnl => by
    show splitOnChar '\n' (l ++ '\n' :: []) = _
    rw [splitOnChar_append_sep '\n' l [] (hnl l (by simp))]
    rfl
  | l :: l2 :: ls, _, hnl => by
    show splitOnChar '\n' ((l ++ '\n' :: joinNl (l2 :: ls)) ++ ['\n']) = _
    have hassoc : (l ++ '\n' :: joinNl (l2 :: ls)) ++ ['\n']
        = l ++ '\n' :: (joinNl (l2 :: ls) ++ ['\n']) := by
      simp
    rw [hassoc, splitOnChar_append_sep '\n' l _ (hnl l (by simp)),
      splitOnChar_joinNl_nl (l2 :: ls) (by simp)
        (fun x hx => hnl x (List.mem_cons_of_mem l hx))]
    rfl

theorem boxLines_joinNl (lines : List JSStr) (hne : lines ≠ [])
    (hnl : ∀ l ∈ lines, '\n' ∉ l) :
    boxLines (joinNl lines) = [] :: (lines ++ [[]]) := by
  unfold boxLines
  rw [List.cons_append]
  have hhead : splitOnChar '\n' ('\n' :: (joinNl lines ++ ['\n']))
      = [] :: splitOnChar '\n' (joinNl lines ++ ['\n']) := by
    simp [splitOnChar]
  rw [hhead, splitOnChar_joinNl_nl lines hne hnl]

theorem blocksFlatten_append (as bs : List Block) :
    blocksFlatten (as ++ bs) = blocksFlatten as ++ blocksFlatten bs := by
  simp [blocksFlatten]

theorem blocksVisible_append (as bs : List Block) :
    blocksVisible (as ++ bs) = blocksVisible as ++ blocksVisible bs := by
  simp [blocksVisible]

def plainBlocks (s : JSStr) : List Block := s.map Block.plain

theorem plainBlocks_flatten (s : JSStr) :
    blocksFlatten (plainBlocks s) = s ∧ blocksVisible (plainBlocks s) = s := by
  induction s with
  | nil => exact ⟨rfl, rfl⟩
  | cons c cs ih =>
    constructor
    · show blocksFlatten (Block.plain c :: plainBlocks cs) = c :: cs
      rw [blocksFlatten_cons, ih.1]
      rfl
    · show blocksVisible (Block.plain c :: plainBlocks cs) = c :: cs
      rw [blocksVisible_cons, ih.2]
      rfl

theorem plainBlocks_valid (s : JSStr)
    (h : ∀ c ∈ s, isEscIntro c = false ∧ c ≠ '\x07') :
    ∀ b ∈ plainBlocks s, b.valid = true := by
  intro b hb
  rcases List.mem_map.mp hb with ⟨c, hc, rfl⟩
  obtain ⟨h1, h2⟩ := h c hc
  simp [Block.valid, h1, h2]

def grayBarBlocks : List Block :=
  [Block.csi ⟨'\x1b', ['9', '0'], [], 'm'⟩, Block.plain '│',
   Block.csi ⟨'\x1b', ['3', '9'], [], 'm'⟩]

theorem grayBarBlocks_facts :
    blocksFlatten grayBarBlocks = colorGray S_BAR ∧
    blocksVisible grayBarBlocks = S_BAR ∧
    ∀ b ∈ grayBarBlocks, b.valid = true := by
  refine ⟨by decide, by decide, by decide⟩

def dimWrapBlocks (dimmed : Bool) (lb : List Block) : List Block :=
  if dimmed then
    Block.csi ⟨'\x1b', ['2'], [], 'm'⟩ ::
      (lb ++ [Block.csi ⟨'\x1b', ['2', '2'], [], 'm'⟩])
  else lb

theorem dimWrapBlocks_facts (dimmed : Bool) (lb : List Block)
    (hv : ∀ b ∈ lb, b.valid = true) :
    blocksFlatten (dimWrapBlocks dimmed lb)
        = (if dimmed then colorDim (blocksFlatten lb) else blocksFlatten lb) ∧
    blocksVisible (dimWrapBlocks dimmed lb) = blocksVisible lb ∧
    ∀ b ∈ dimWrapBlocks dimmed lb, b.valid = true := by
  cases dimmed with
  | false => exact ⟨rfl, rfl, hv⟩
  | true =>
    refine ⟨?_, ?_, ?_⟩
    · show blocksFlatten (Block.csi ⟨'\x1b', ['2'], [], 'm'⟩ ::
        (lb ++ [Block.csi ⟨'\x1b', ['2', '2'], [], 'm'⟩]))
          = colorDim (blocksFlatten lb)
      rw [blocksFlatten_cons, blocksFlatten_append]
      show (Block.csi ⟨'\x1b', ['2'], [], 'm'⟩).toList ++ (blocksFlatten lb
        ++ blocksFlatten [Block.csi ⟨'\x1b', ['2', '2'], [], 'm'⟩])
          = colorDim (blocksFlatten lb)
      have h1 : (Block.csi ⟨'\x1b', ['2'], [], 'm'⟩).toList = "\x1b[2m".data := by
        decide
      have h2 : blocksFlatten [Block.csi ⟨'\x1b', ['2', '2'], [], 'm'⟩]
          = "\x1b[22m".data := by decide
      rw [h1, h2]
      unfold colorDim
      simp
    · show blocksVisible (Block.csi ⟨'\x1b', ['2'], [], 'm'⟩ ::
        (lb ++ [Block.csi ⟨'\x1b', ['2', '2'], [], 'm'⟩])) = blocksVisible lb
      rw [blocksVisible_cons, blocksVisible_append]
      show ([] : List Char) ++ (blocksVisible lb
        ++ blocksVisible [Block.csi ⟨'\x1b', ['2', '2'], [], 'm'⟩])
          = blocksVisible lb
      have h2 : blocksVisible [Block.csi ⟨'\x1b', ['2', '2'], [], 'm'⟩] = [] := by
        decide
      rw [h2]
      simp
    · intro b hb
      show Block.valid b = true
      rcases List.mem_cons.mp hb with rfl | hb2
      · decide
      · rcases List.mem_append.mp hb2 with hm | hm
        · exact hv b hm
        · rcases List.mem_singleton.mp hm with rfl
          decide

/-- The block decomposition of one body row. -/
def boxRowBlocks (len : Nat) (dimmed : Bool) (lb : List Block) : List Block :=
  grayBarBlocks ++ plainBlocks "  ".data ++ dimWrapBlocks dimmed lb
    ++ plainBlocks (List.replicate (len - (blocksVisible lb).length) ' ')
    ++ grayBarBlocks

theorem boxRow_eq_blocks (len : Nat) (dimmed : Bool) (lb : List Block)
    (hv : ∀ b ∈ lb, b.valid = true) :
    boxRow len dimmed (blocksFlatten lb)
      = blocksFlatten (boxRowBlocks len dimmed lb) := by
  unfold boxRow boxRowBlocks
  rw [strip_blocks lb hv, blocksFlatten_append, blocksFlatten_append,
    blocksFlatten_append, blocksFlatten_append, grayBarBlocks_facts.1,
    (plainBlocks_flatten _).1, (dimWrapBlocks_facts dimmed lb hv).1,
    (plainBlocks_flatten _).1]

theorem boxRowBlocks_valid (len : Nat) (dimmed : Bool) (lb : List Block)
    (hv : ∀ b ∈ lb, b.valid = true) :
    ∀ b ∈ boxRowBlocks len dimmed lb, b.valid = true := by
  intro b hb
  unfold boxRowBlocks at hb
  have hsp : ∀ b2 ∈ plainBlocks ("  ".data), b2.valid = true := by decide
  have hpad : ∀ b2 ∈ plainBlocks (List.replicate
      (len - (blocksVisible lb).length) ' '), b2.valid = true := by
    apply plainBlocks_valid
    intro c hc
    rw [List.eq_of_mem_replicate hc]
    exact ⟨by decide, by decide⟩
  rcases List.mem_append.mp hb with hb | hb
  rotate_left
  · exact grayBarBlocks_facts.2.2 b hb
  rcases List.mem_append.mp hb with hb | hb
  rotate_left
  · exact hpad b hb
  rcases List.mem_append.mp hb with hb | hb
  rotate_left
  · exact (dimWrapBlocks_facts dimmed lb hv).2.2 b hb
  rcases List.mem_append.mp hb with hb | hb
  · exact grayBarBlocks_facts.2.2 b hb
  · exact hsp b hb

theorem boxRow_strip_length (len : Nat) (dimmed : Bool) (lb : List Block)
    (hv : ∀ b ∈ lb, b.valid = true)
    (hle : (blocksVisible lb).length ≤ len) :
    (strip (boxRow len dimmed (blocksFlatten lb))).length = len + 4 := by
  rw [boxRow_eq_blocks len dimmed lb hv,
    strip_blocks _ (boxRowBlocks_valid len dimmed lb hv)]
  unfold boxRowBlocks
  rw [blocksVisible_append, blocksVisible_append, blocksVisible_append,
    blocksVisible_append, grayBarBlocks_facts.2.1, (plainBlocks_flatten _).2,
    (dimWrapBlocks_facts dimmed lb hv).2.1, (plainBlocks_flatten _).2]
  simp only [List.length_append, List.length_replicate]
  have h1 : S_BAR.length = 1 := by decide
  have h2 : ("  ".data).length = 2 := by decide
  rw [h1, h2]
  omega

theorem foldl_max_facts :
    ∀ (l : List Nat) (a : Nat),
      a ≤ List.foldl (fun s n => max s n) a l ∧
      ∀ n ∈ l, n ≤ List.foldl (fun s n => max s n) a l
  | [], a => ⟨le_refl a, by simp⟩
  | x :: xs, a => by
    have ih := foldl_max_facts xs (max a x)
    rw [List.foldl_cons]
    refine ⟨le_trans (le_max_left a x) ih.1, ?_⟩
    intro n hn
    rcases List.mem_cons.mp hn with rfl | hm
    · exact le_trans (le_max_right a n) ih.1
    · exact ih.2 n hm

theorem foldl_box_step :
    ∀ (ls : List (List Block)) (a : Nat),
      (∀ lb ∈ ls, ∀ b ∈ lb, b.valid = true) →
      List.foldl (fun sum ln => if sum < (strip ln).length
          then (strip ln).length else sum) a (ls.map blocksFlatten)
        = List.foldl (fun s n => max s n) a
            (ls.map fun lb => (blocksVisible lb).length)
  | [], _, _ => rfl
  | lb :: ls, a, hv => by
    simp only [List.map_cons, List.foldl_cons]
    have hstep : (if a < (strip (blocksFlatten lb)).length
        then (strip (blocksFlatten lb)).length else a)
          = max a (blocksVisible lb).length := by
      rw [strip_blocks lb (hv lb (by simp))]
      split_ifs <;> omega
    rw [hstep]
    exact foldl_box_step ls _ (fun lb2 h2 => hv lb2 (List.mem_cons_of_mem lb h2))

/-- C6 (amended): for a body whose lines and a title that are interleavings
of plain characters and well-formed escape sequences (no stray control
characters), `buildBox` computes `contentWidth = max(maximum visible length
over all body lines, visible length of the title) + 2`, emits a top border
whose horizontal-rule length is `max(contentWidth - titleVisibleLength - 1,
1)`, pads every body line (after a prepended and an appended blank line) so
that every body row has the same visible width after stripping styling
(namely `contentWidth + 4`, counting the two bar glyphs and two spaces), and
emits a bottom border of rule length `contentWidth + 2`. (For arbitrary
bodies the uniform-width part fails: a stray BEL in a body line makes the
ANSI regex swallow visible characters of that row; see the
counterexample.) -/
theorem buildBox_layout (lineBlocks : List (List Block))
    (titleBlocks : List Block) (dimmed : Bool) (hne : lineBlocks ≠ [])
    (hv : ∀ lb ∈ lineBlocks, ∀ b ∈ lb, b.valid = true)
    (hvt : ∀ b ∈ titleBlocks, b.valid = true)
    (hnl : ∀ lb ∈ lineBlocks, '\n' ∉ blocksFlatten lb) :
    boxLen (joinNl (lineBlocks.map blocksFlatten)) (blocksFlatten titleBlocks)
      = max ((lineBlocks.map (fun lb => (blocksVisible lb).length)).foldl
            (fun s n => max s n) 0)
          (blocksVisible titleBlocks).length + 2 ∧
    boxTopRule (joinNl (lineBlocks.map blocksFlatten))
        (blocksFlatten titleBlocks)
      = max ((boxLen (joinNl (lineBlocks.map blocksFlatten))
            (blocksFlatten titleBlocks) : Int)
          - ((blocksVisible titleBlocks).length : Int) - 1) 1 ∧
    (∀ row ∈ boxBodyRows (joinNl (lineBlocks.map blocksFlatten))
        (blocksFlatten titleBlocks) dimmed,
      (strip row).length
        = boxLen (joinNl (lineBlocks.map blocksFlatten))
            (blocksFlatten titleBlocks) + 4) ∧
    boxBottomRule (joinNl (lineBlocks.map blocksFlatten))
        (blocksFlatten titleBlocks)
      = boxLen (joinNl (lineBlocks.map blocksFlatten))
          (blocksFlatten titleBlocks) + 2 := by
  have hmapne : lineBlocks.map blocksFlatten ≠ [] := by
    intro hcon
    exact hne (List.map_eq_nil_iff.mp hcon)
  have hnl' : ∀ l ∈ lineBlocks.map blocksFlatten, '\n' ∉ l := by
    intro l hl
    rcases List.mem_map.mp hl with ⟨lb, hlb, rfl⟩
    exact hnl lb hlb
  have hbl := boxLines_joinNl (lineBlocks.map blocksFlatten) hmapne hnl'
  have hstrip_title : strip (blocksFlatten titleBlocks)
      = blocksVisible titleBlocks := strip_blocks titleBlocks hvt
  have hLen : boxLen (joinNl (lineBlocks.map blocksFlatten))
      (blocksFlatten titleBlocks)
        = max ((lineBlocks.map (fun lb => (blocksVisible lb).length)).foldl
            (fun s n => max s n) 0)
          (blocksVisible titleBlocks).length + 2 := by
    unfold boxLen
    rw [hbl, List.foldl_cons]
    have h0 : (if 0 < (strip ([] : JSStr)).length
        then (strip ([] : JSStr)).length else 0) = 0 := rfl
    rw [h0, List.foldl_append, List.foldl_cons, List.foldl_nil]
    have hA : ∀ A : Nat, (if A < (strip ([] : JSStr)).length
        then (strip ([] : JSStr)).length else A) = A := by
      intro A
      have hz : (strip ([] : JSStr)).length = 0 := rfl
      rw [hz]
      simp
    rw [hA, foldl_box_step lineBlocks 0 hv, hstrip_title]
  refine ⟨hLen, ?_, ?_, rfl⟩
  · unfold boxTopRule
    rw [hstrip_title]
  · intro row hrow
    unfold boxBodyRows at hrow
    rw [hbl] at hrow
    rcases List.mem_map.mp hrow with ⟨ln, hln, rfl⟩
    have hbound := foldl_max_facts
      (lineBlocks.map (fun lb => (blocksVisible lb).length)) 0
    rcases List.mem_cons.mp hln with rfl | hln2
    · have := boxRow_strip_length
        (boxLen (joinNl (lineBlocks.map blocksFlatten))
          (blocksFlatten titleBlocks)) dimmed []
        (fun b hb => absurd hb (by simp)) (Nat.zero_le _)
      exact this
    · rcases List.mem_append.mp hln2 with hm | hm
      · rcases List.mem_map.mp hm with ⟨lb, hlb, rfl⟩
        apply boxRow_strip_length _ dimmed lb (hv lb hlb)
        have hin : (blocksVisible lb).length
            ∈ lineBlocks.map (fun lb => (blocksVisible lb).length) :=
          List.mem_map.mpr ⟨lb, hlb, rfl⟩
        have := hbound.2 _ hin
        omega
      · rcases List.mem_singleton.mp hm with rfl
        have := boxRow_strip_length
          (boxLen (joinNl (lineBlocks.map blocksFlatten))
            (blocksFlatten titleBlocks)) dimmed []
          (fun b hb => absurd hb (by simp)) (Nat.zero_le _)
        exact this

/-- Witness for C6: body lines of visible lengths 3, 10, 1 and a title of
visible length 6 give `contentWidth = 12`, and every body row strips to the
same visible width `12 + 4`. -/
theorem buildBox_layout_witness :
    boxLen ("abc\nabcdefghij\na".data) ("abcdef".data) = 12 ∧
    ∀ r ∈ boxBodyRows ("abc\nabcdefghij\na".data) ("abcdef".data) true,
      (strip r).length = 16 := by
  have h := buildBox_layout
    [plainBlocks ("abc".data), plainBlocks ("abcdefghij".data),
     plainBlocks ("a".data)]
    (plainBlocks ("abcdef".data)) true (by simp) (by decide) (by decide)
    (by decide)
  exact ⟨h.1.trans (by decide), fun r hr => (h.2.2.1 r hr).trans (by decide)⟩

/-- Counterexample for C6 as stated (for every body message): with the body
`'a\x07b\nxy'` and an empty title, the content width is 5, but the four body
rows have stripped visible widths 9, 7, 9 and 9 — the row containing the
stray BEL loses visible characters to the ANSI regex, so not every body row
has the same visible width. -/
theorem buildBox_layout_counterexample :
    boxLen ("a\x07b\nxy".data) [] = 5 ∧
    (boxBodyRows ("a\x07b\nxy".data) [] true).map (fun r => (strip r).length)
      = [9, 7, 9, 9] := by decide

/-- Witness for C9: on an active spinner the signal handler performs the
cancelled stop. -/
theorem lifecycleGuard_handlers_witness :
    signalEventHandler
        { isSpinnerActive := true, message := [], timerActive := true,
          hooksRegistered := true, inputBlocked := true }
      = spinnerStop
          { isSpinnerActive := true, message := [], timerActive := true,
            hooksRegistered := true, inputBlocked := true }
          "Canceled".data 1 :=
  (lifecycleGuard_handlers.1
    { isSpinnerActive := true, message := [], timerActive := true,
      hooksRegistered := true, inputBlocked := true } rfl).1

end Clack
